import Mathlib

/-!
Verification of the gofft radix-2 FFT and convolution package.

The Go sources are embedded shallowly: Go slices of complex128 become
`List K` over a field `K` (instantiated at `ℂ` for the transform-level
theorems, where the float twiddle factors are idealised to exact complex
exponentials), in-place mutation becomes explicit state passing via
`List.set`, counted `for` loops become folds over `List.range`, and the
doubling `for n := 1; n < N; n <<= 1` loops become folds over their
(computed) iteration counts.  Fallible functions return their error
explicitly together with the final contents of every buffer they may
mutate.
-/

namespace Gofft

/-! ### utils.go -/

/-- Embeds `IsPow2` (utils.go): `N != 0 && N & (N-1) == 0`. -/
def IsPow2 (N : ℕ) : Bool :=
  if N = 0 then false else N &&& (N - 1) == 0

/-- Embeds `NextPow2` (utils.go): bit-smearing round-up to a power of two. -/
def NextPow2 (N : ℕ) : ℕ :=
  if N = 0 then 1 else
    let M1 := N - 1
    let M2 := M1 ||| (M1 >>> 1)
    let M3 := M2 ||| (M2 >>> 2)
    let M4 := M3 ||| (M3 >>> 4)
    let M5 := M4 ||| (M4 >>> 8)
    let M6 := M5 ||| (M5 >>> 16)
    M6 + 1

variable {K : Type} [Field K]

/-- Embeds `ZeroPad` (utils.go): `y := make([]complex128, N); copy(y, x)`.
`copy` copies `min N (len x)` elements; the rest of `y` stays zero. -/
def ZeroPad (x : List K) (N : ℕ) : List K :=
  x.take N ++ List.replicate (N - x.length) 0

/-! ### fft.go -/

/-- The Go parallel assignment `x[i], x[j] = x[j], x[i]`:
both right-hand sides are read before either write. -/
def listSwap (x : List K) (i j : ℕ) : List K :=
  (x.set i (x.getD j 0)).set j (x.getD i 0)

/-- Iteration count of the Go loop `for n := 1; n < N; n <<= 1`,
computed with structural fuel (`fuel = N` always suffices, since doubling
from 1 exceeds `N` within `N` steps). -/
def pow2StagesAux : ℕ → ℕ → ℕ → ℕ
  | 0, _, _ => 0
  | fuel + 1, n, N => if n < N then pow2StagesAux fuel (2 * n) N + 1 else 0

/-- Number of doubling stages of `for n := 1; n < N; n <<= 1`. -/
def pow2Stages (N : ℕ) : ℕ := pow2StagesAux N 1 N

/-- One butterfly `f := F[fi] * x[b]; x[a], x[b] = x[a]+f, x[a]-f`
(fft.go, the body shared by the small-size shortcuts and the stage loop). -/
def butterflyAt (x : List K) (F : List K) (fi a b : ℕ) : List K :=
  let f := F.getD fi 0 * x.getD b 0
  (x.set a (x.getD a 0 + f)).set b (x.getD a 0 - f)

/-- One merge stage of `fft` (fft.go lines 105-111): for every group offset
`o = 2*n*g < N` and every `k < n`, butterfly positions `k+o` and `k+o+n`
with twiddle `factors[k*s]`.  The offset loop `for o := 0; o < N; o += 2n`
runs `ceil(N / 2n)` times. -/
def fftStage (x : List K) (F : List K) (N s n : ℕ) : List K :=
  (List.range ((N + (2 * n - 1)) / (2 * n))).foldl (fun y g =>
    (List.range n).foldl (fun z k =>
      butterflyAt z F (k * s) (k + 2 * n * g) (k + 2 * n * g + n)) y) x

/-- The full stage loop of `fft` (fft.go lines 102-112).  The source keeps
`n` doubling from 1 while `n < N` and `s` halving from `N` in lockstep; at
stage `t` this is `n = 2^t` and `s = N >>> (t+1)`. -/
def fftButterfly (x : List K) (N : ℕ) (F : List K) : List K :=
  (List.range (pow2Stages N)).foldl (fun y t =>
    fftStage y F N (N >>> (t + 1)) (2 ^ t)) x

/-- Embeds `permute` (fft.go lines 159-164): for `i = 1 .. N-2` in ascending
order, exchange `x[i]` and `x[perm[i]]`. -/
def permute (x : List K) (perm : List ℕ) (N : ℕ) : List K :=
  (List.range' 1 (N - 2)).foldl (fun y i => listSwap y i (perm.getD i 0)) x

/-- Embeds `fft` (fft.go lines 78-113), including the closed-form shortcuts
for `N = 1, 2, 4` and the permute-then-butterfly general path. -/
def fft (x : List K) (N : ℕ) (F : List K) (perm : List ℕ) : List K :=
  if N = 1 then x
  else if N = 2 then butterflyAt x F 0 0 1
  else if N = 4 then
    butterflyAt (butterflyAt (butterflyAt (butterflyAt (listSwap x 1 2)
      F 0 0 1) F 0 2 3) F 0 0 2) F 1 1 3
  else fftButterfly (permute x perm N) N F

/-- Interior reversal loop of `ifft` (fft.go lines 118-121):
`for i := 1; i < N/2; i++ { x[i], x[N-i] = x[N-i], x[i] }`. -/
def ifftRev (x : List K) (N : ℕ) : List K :=
  (List.range' 1 (N / 2 - 1)).foldl (fun y i => listSwap y i (N - i)) x

/-- Scaling loop of `ifft` (fft.go lines 127-130): multiply every entry by
`invN`. -/
def ifftScale (x : List K) (N : ℕ) (invN : K) : List K :=
  (List.range N).foldl (fun y i => y.set i (y.getD i 0 * invN)) x

/-- Embeds `ifft` (fft.go lines 116-131): reverse the interior, run the
forward transform, scale by `1/N`. -/
def ifft (x : List K) (N : ℕ) (F : List K) (perm : List ℕ) : List K :=
  ifftScale (fft (ifftRev x N) N F perm) N (N : K)⁻¹

/-- The chain-following loop inside `permutationIndex`
(`ind := index[i]; for ind < i { ind = index[ind] }`), with structural
fuel; on the tables actually built the chase stops after at most one
step, so any fuel `≥ 2` computes the loop exactly. -/
def chaseAux (index : List ℕ) (i : ℕ) : ℕ → ℕ → ℕ
  | ind, 0 => ind
  | ind, fuel + 1 => if ind < i then chaseAux index i (index.getD ind 0) fuel else ind

/-- One doubling step of `permutationIndex` (fft.go lines 140-145):
for `i < n`, `index[i] <<= 1; index[i+n] = index[i] + 1`. -/
def piDoubleStep (index : List ℕ) (n : ℕ) : List ℕ :=
  (List.range n).foldl (fun ind i =>
    let v := 2 * ind.getD i 0
    (ind.set i v).set (i + n) (v + 1)) index

/-- Embeds `permutationIndex` (fft.go lines 135-155): the doubling
construction of the raw bit-reversal table followed by the chain
compression that turns it into a swap list. -/
def permutationIndex (N : ℕ) : List ℕ :=
  let index0 := (List.replicate N 0).set 0 0
  let index1 := (List.range (pow2Stages N)).foldl
    (fun ind t => piDoubleStep ind (2 ^ t)) index0
  (List.range' 1 (N - 2)).foldl
    (fun ind i => ind.set i (chaseAux ind i (ind.getD i 0) N)) index1

/-- Embeds `roots` (fft.go lines 167-174): `factors[n] = cos θ + i sin θ`
with `θ = -2π n / N`, idealised as the exact complex exponential. -/
noncomputable def roots (N : ℕ) : List ℂ :=
  (List.range (N / 2)).map fun n =>
    Complex.exp (-2 * (Real.pi : ℂ) * n / N * Complex.I)

/-- The failure modes of the embedded API: the `InputSizeError` of the
spec (the Go code returns `fmt.Errorf` values; only the kind matters
here), and run-time panics, which are distinct from returned errors. -/
inductive GoFailure where
  | inputSize (msg : String)
  | panicIndexOutOfRange
  | panicDivideByZero
  | outOfFuel
deriving DecidableEq

/-- Embeds `Prepare` (fft.go lines 24-40): fails on non-powers of two,
otherwise (idempotently) builds the cached tables. -/
def Prepare (N : ℕ) : Option GoFailure :=
  if IsPow2 N then none
  else some (GoFailure.inputSize "Input dimension must be power of 2")

/-- Embeds `getVars` (fft.go lines 69-75); the memoised `factorsMap` and
`permMap` caches are modelled by recomputation, which the read/write
locking makes observationally equivalent. -/
noncomputable def getVars (x : List ℂ) : ℕ × List ℂ × List ℕ × Option GoFailure :=
  (x.length, roots x.length, permutationIndex x.length, Prepare x.length)

/-- Embeds `FFT` (fft.go lines 46-53) as error-plus-final-buffer:
validation precedes the in-place transform, so on failure the buffer is
the untouched input. -/
noncomputable def FFT (x : List ℂ) : Option GoFailure × List ℂ :=
  match getVars x with
  | (N, factors, perm, none) => (none, fft x N factors perm)
  | (_, _, _, some e) => (some e, x)

/-- Embeds `IFFT` (fft.go lines 59-66), same shape as `FFT`. -/
noncomputable def IFFT (x : List ℂ) : Option GoFailure × List ℂ :=
  match getVars x with
  | (N, factors, perm, none) => (none, ifft x N factors perm)
  | (_, _, _, some e) => (some e, x)

/-! ### convolve.go -/

/-- Go `copy(X[i:], seg)`: overwrite `X` from position `i` with `seg`,
never growing `X` (`copy` stops at the shorter of the two slices). -/
def setSlice (X : List K) (i : ℕ) (seg : List K) : List K :=
  X.take i ++ seg.take (X.length - i) ++ X.drop (i + seg.length)

/-- Embeds `convolve` (convolve.go lines 235-243): forward-transform both,
elementwise multiply into `x` while zeroing `y`, inverse-transform `x`. -/
def convolve (x y : List K) (N : ℕ) (F : List K) (perm : List ℕ) :
    List K × List K :=
  let x1 := fft x N F perm
  let y1 := fft y N F perm
  let p := (List.range N).foldl (fun (p : List K × List K) i =>
    (p.1.set i (p.1.getD i 0 * p.2.getD i 0), p.2.set i 0)) (x1, y1)
  (ifft p.1 N F perm, p.2)

/-- Embeds `FastConvolve` (convolve.go lines 88-101) as error or final
contents of the two buffers it mutates. -/
noncomputable def FastConvolve (x y : List ℂ) :
    Except GoFailure (List ℂ × List ℂ) :=
  if x.length = 0 ∧ y.length = 0 then Except.ok (x, y)
  else if x.length ≠ y.length then
    Except.error (GoFailure.inputSize "x and y must have the same length")
  else
    match getVars x with
    | (_, _, _, some e) => Except.error e
    | (N, factors, perm, none) => Except.ok (convolve x y N factors perm)

/-- Iteration count of the Go loop `for ; n != N; n <<= 1`
(convolve.go line 211), with structural fuel; after the validation in
`FastMultiConvolve` (`n` and `N/n` powers of two, `n ∣ N`) the loop
performs exactly `log2 (N/n)` doublings, so `fuel = N` suffices. -/
def fmcLevels : ℕ → ℕ → ℕ → ℕ
  | 0, _, _ => 0
  | fuel + 1, n, N => if n ≠ N then fmcLevels fuel (2 * n) N + 1 else 0

/-- One merge level of `FastMultiConvolve` (convolve.go lines 216-229):
convolve each adjacent pair of `n`-blocks in place.  The goroutine
fan-out convolves the same disjoint pairs and joins before the next
level, so the multithreaded schedule computes the same buffer. -/
def fmcLevel (X : List K) (N n : ℕ) (F : List K) (perm : List ℕ) : List K :=
  (List.range ((N + (2 * n - 1)) / (2 * n))).foldl (fun Y g =>
    let i := 2 * n * g
    let c := convolve ((Y.drop i).take n) ((Y.drop (i + n)).take n) n F perm
    setSlice (setSlice Y i c.1) (i + n) c.2) X

/-- One iteration of the level loop of `FastMultiConvolve`
(convolve.go lines 211-230): `getVars(X[:n])` re-validates the current
block length (never failing after the initial checks), then the level
merges adjacent pairs; an already-failed state short-circuits. -/
noncomputable def fmcBody (N n0 : ℕ) (st : Except GoFailure (List ℂ)) (t : ℕ) :
    Except GoFailure (List ℂ) :=
  match st with
  | Except.error e => Except.error e
  | Except.ok Y =>
    let nt := n0 * 2 ^ t
    match Prepare nt with
    | some e => Except.error e
    | none => Except.ok (fmcLevel Y N nt (roots nt) (permutationIndex nt))

/-- Embeds `FastMultiConvolve` (convolve.go lines 200-232).  With a zero
block length the source evaluates `len(X) % 0`, a run-time
division-by-zero panic. -/
noncomputable def FastMultiConvolve (X : List ℂ) (n : ℕ) (multithread : Bool) :
    Except GoFailure (List ℂ) :=
  let N := X.length
  if n = 0 then Except.error GoFailure.panicDivideByZero
  else if N % n ≠ 0 then
    Except.error (GoFailure.inputSize "len of X not divisible by n")
  else if IsPow2 n = false then
    Except.error (GoFailure.inputSize "block length not a power of 2")
  else if IsPow2 (N / n) = false then
    Except.error (GoFailure.inputSize "number of blocks not a power of 2")
  else
    (List.range (fmcLevels N n N)).foldl (fmcBody N n) (Except.ok X)

/-- The bucket map `arraysByLength` of `MultiConvolve`: a Go
`map[int][][]complex128` as an association list with unique keys;
`len` of the map is the number of keys present. -/
abbrev Buckets := List (ℕ × List (List ℂ))

/-- Map read `m[k]` (absent keys read as the zero value `nil`). -/
def bGet (m : Buckets) (k : ℕ) : List (List ℂ) :=
  match m.find? (fun p => p.1 == k) with
  | some p => p.2
  | none => []

/-- Key presence test. -/
def bHas (m : Buckets) (k : ℕ) : Bool :=
  (m.find? (fun p => p.1 == k)).isSome

/-- Map write `m[k] = v`. -/
def bSet (m : Buckets) (k : ℕ) (v : List (List ℂ)) : Buckets :=
  if bHas m k then m.map (fun p => if p.1 == k then (k, v) else p)
  else m ++ [(k, v)]

/-- Map deletion `delete(m, k)`. -/
def bDel (m : Buckets) (k : ℕ) : Buckets :=
  m.filter (fun p => p.1 != k)

/-- Embeds `multiConvolveSingleLevel` (convolve.go lines 165-187). -/
noncomputable def multiConvolveSingleLevel (arrays : List (List ℂ)) (N : ℕ)
    (F : List ℂ) (perm : List ℕ) (rL : ℤ) : Except GoFailure (List ℂ) :=
  if arrays.length = 2 then
    Except.ok ((convolve (arrays.getD 0 []) (arrays.getD 1 []) N F perm).1.take rL.toNat)
  else if arrays.length = 1 then
    Except.ok ((arrays.getD 0 []).take rL.toNat)
  else
    let n2 := NextPow2 arrays.length
    let data0 : List ℂ := List.replicate (n2 * N) 0
    let data1 := (List.range arrays.length).foldl
      (fun d j => setSlice d (N * j) (arrays.getD j [])) data0
    let data2 := (List.range' arrays.length (n2 - arrays.length)).foldl
      (fun d j => d.set (N * j) 1) data1
    (FastMultiConvolve data2 N false).map (fun d => d.take rL.toNat)

/-- The bucket-merge loop of `MultiConvolve` (convolve.go lines 132-162),
with structural fuel for the `for i := 1; i <= mx; i *= 2` loop
(`mx + 2` units cover the at most `log2 mx + 2` iterations; the
`outOfFuel` marker is a model artifact on runs the source cannot take).
The final line embeds `arraysByLength[mx][0][:returnLength]`, whose
indexing panics when bucket `mx` is absent. -/
noncomputable def mcIter : ℕ → ℕ → Buckets → ℕ → ℤ → Except GoFailure (List ℂ)
  | 0, _, _, _, _ => Except.error GoFailure.outOfFuel
  | fuel + 1, i, abl, mx, rL =>
    if i ≤ mx then
      let arrays := bGet abl i
      if arrays.length > 0 then
        let N := (arrays.getD 0 []).length
        match Prepare N with
        | some e => Except.error e
        | none =>
          if abl.length = 1 then
            multiConvolveSingleLevel arrays N (roots N) (permutationIndex N) rL
          else
            let pushes := (List.range ((arrays.length + 1) / 2)).map (fun g =>
              let j := 2 * g
              let aj :=
                if j + 1 < arrays.length then
                  (convolve (arrays.getD j []) (arrays.getD (j + 1) []) N
                    (roots N) (permutationIndex N)).1
                else arrays.getD j []
              ZeroPad aj (2 * i))
            let abl1 := bSet abl (2 * i) (bGet abl (2 * i) ++ pushes)
            let mx1 := if 2 * i > mx then 2 * i else mx
            let abl2 := bDel (bSet abl1 i []) i
            mcIter fuel (2 * i) abl2 mx1 rL
      else
        let abl2 := bDel (bSet abl i []) i
        mcIter fuel (2 * i) abl2 mx rL
    else
      match bGet abl mx with
      | [] => Except.error GoFailure.panicIndexOutOfRange
      | a :: _ => Except.ok (a.take rL.toNat)

/-- Embeds `MultiConvolve` (convolve.go lines 113-163): bucket each input
by `NextPow2 (2 * len)`, track the maximal bucket `mx` and the signed
result length `returnLength`, then run the merge loop. -/
noncomputable def MultiConvolve (X : List (List ℂ)) : Except GoFailure (List ℂ) :=
  let st := X.foldl
    (fun (st : Buckets × ℕ × ℤ) x =>
      let n := NextPow2 (2 * x.length)
      (bSet st.1 n (bGet st.1 n ++ [ZeroPad x n]),
        (if n > st.2.1 then n else st.2.1),
        st.2.2 + (x.length : ℤ) - 1))
    ([], 1, 1)
  if st.2.2 ≤ 0 then Except.ok []
  else mcIter (st.2.1 + 2) 1 st.1 st.2.1 st.2.2

/-! ### Store model

`Convolve` promises not to mutate its arguments; that is an aliasing
fact, so it is stated over an explicit heap of buffers: `ZeroPad`
allocates a fresh buffer, `FastConvolve` overwrites the two buffers it
is handed. -/

abbrev Store := List (List ℂ)

/-- `ZeroPad` in the store: allocate a fresh padded copy, return its id. -/
noncomputable def ZeroPadS (s : Store) (b : ℕ) (N : ℕ) : Store × ℕ :=
  (s ++ [ZeroPad (s.getD b []) N], s.length)

/-- `FastConvolve` in the store: overwrite the two buffers with their
final contents (distinct ids; the callers below always pass fresh
distinct allocations). -/
noncomputable def FastConvolveS (s : Store) (xb yb : ℕ) :
    Except GoFailure Store :=
  match FastConvolve (s.getD xb []) (s.getD yb []) with
  | Except.error e => Except.error e
  | Except.ok xy => Except.ok ((s.set xb xy.1).set yb xy.2)

/-- Embeds `Convolve` (convolve.go lines 72-82) over the store: size the
target, allocate zero-padded copies of both operands, fast-convolve the
copies, return the first `len x + len y - 1` entries. -/
noncomputable def ConvolveS (s : Store) (xb yb : ℕ) :
    Store × Except GoFailure (List ℂ) :=
  let x := s.getD xb []
  let y := s.getD yb []
  if x.length = 0 ∧ y.length = 0 then (s, Except.ok [])
  else
    let n := x.length + y.length - 1
    let N := NextPow2 n
    let s1 := ZeroPadS s xb N
    let s2 := ZeroPadS s1.1 yb N
    match FastConvolveS s2.1 s1.2 s2.2 with
    | Except.error e => (s2.1, Except.error e)
    | Except.ok s3 => (s3, Except.ok ((s3.getD s1.2 []).take n))

/-! ### Characterisation of `IsPow2` -/

theorem land_two_mul (a b : ℕ) : (2 * a) &&& (2 * b) = 2 * (a &&& b) := by
  apply Nat.eq_of_testBit_eq
  intro i
  cases i with
  | zero => simp [Nat.testBit_land, Nat.mul_mod_right]
  | succ j =>
      have h1 : (2 * a) / 2 = a := by omega
      have h2 : (2 * b) / 2 = b := by omega
      have h3 : (2 * (a &&& b)) / 2 = a &&& b := by omega
      rw [Nat.testBit_land, Nat.testBit_add_one, Nat.testBit_add_one,
        Nat.testBit_add_one, h1, h2, h3, Nat.testBit_land]

theorem land_two_mul_add_one_right (a b : ℕ) :
    (2 * a) &&& (2 * b + 1) = 2 * (a &&& b) := by
  apply Nat.eq_of_testBit_eq
  intro i
  cases i with
  | zero => simp [Nat.testBit_land, Nat.mul_mod_right]
  | succ j =>
      have h1 : (2 * a) / 2 = a := by omega
      have h2 : (2 * b + 1) / 2 = b := by omega
      have h3 : (2 * (a &&& b)) / 2 = a &&& b := by omega
      rw [Nat.testBit_land, Nat.testBit_add_one, Nat.testBit_add_one,
        Nat.testBit_add_one, h1, h2, h3, Nat.testBit_land]

theorem land_two_mul_add_one_left (a b : ℕ) :
    (2 * a + 1) &&& (2 * b) = 2 * (a &&& b) := by
  apply Nat.eq_of_testBit_eq
  intro i
  cases i with
  | zero => simp [Nat.testBit_land, Nat.mul_mod_right]
  | succ j =>
      have h1 : (2 * a + 1) / 2 = a := by omega
      have h2 : (2 * b) / 2 = b := by omega
      have h3 : (2 * (a &&& b)) / 2 = a &&& b := by omega
      rw [Nat.testBit_land, Nat.testBit_add_one, Nat.testBit_add_one,
        Nat.testBit_add_one, h1, h2, h3, Nat.testBit_land]

/-- The code predicate `IsPow2` recognises exactly the powers of two. -/
theorem isPow2_iff (N : ℕ) : IsPow2 N = true ↔ ∃ m, N = 2 ^ m := by
  induction N using Nat.strong_induction_on with
  | _ N IH =>
    match N with
    | 0 =>
        constructor
        · intro h; simp [IsPow2] at h
        · rintro ⟨m, hm⟩; exact absurd hm.symm (Nat.pos_of_ne_zero (by positivity)).ne'
    | 1 =>
        constructor
        · intro _; exact ⟨0, rfl⟩
        · intro _; decide
    | (N + 2) =>
        rcases Nat.even_or_odd (N + 2) with ⟨k, hk⟩ | ⟨k, hk⟩
        · -- even case: N + 2 = 2 * k with k ≥ 1
          have hk2 : N + 2 = 2 * k := by omega
          have hkpos : 1 ≤ k := by omega
          have hsub : N + 2 - 1 = 2 * (k - 1) + 1 := by omega
          have hland : (N + 2) &&& (N + 2 - 1) = 2 * (k &&& (k - 1)) := by
            rw [hsub]
            calc (N + 2) &&& (2 * (k - 1) + 1)
                = (2 * k) &&& (2 * (k - 1) + 1) := by rw [hk2]
              _ = 2 * (k &&& (k - 1)) := land_two_mul_add_one_right k (k - 1)
          have hiff : IsPow2 (N + 2) = true ↔ IsPow2 k = true := by
            simp only [IsPow2, if_neg (by omega : ¬ N + 2 = 0),
              if_neg (by omega : ¬ k = 0), beq_iff_eq, hland]
            omega
          rw [hiff, IH k (by omega)]
          constructor
          · rintro ⟨j, hj⟩; exact ⟨j + 1, by rw [hk2, hj]; ring⟩
          · rintro ⟨m, hm⟩
            match m with
            | 0 => omega
            | m + 1 =>
                refine ⟨m, ?_⟩
                have : 2 * k = 2 * 2 ^ m := by rw [← hk2, hm]; ring
                omega
        · -- odd case: N + 2 = 2 * k + 1 with k ≥ 1; never a power of two
          have hk1 : 1 ≤ k := by omega
          have hland : (N + 2) &&& (N + 2 - 1) = 2 * k := by
            have h1 : N + 2 = 2 * k + 1 := by omega
            rw [h1]
            have h2 : 2 * k + 1 - 1 = 2 * k := by omega
            rw [h2, land_two_mul_add_one_left k k, Nat.and_self]
          constructor
          · intro h
            simp only [IsPow2, if_neg (by omega : ¬ N + 2 = 0), beq_iff_eq, hland] at h
            omega
          · rintro ⟨m, hm⟩
            match m with
            | 0 => omega
            | j + 1 =>
                exfalso
                have : N + 2 = 2 * 2 ^ j := by rw [hm]; ring
                omega

theorem isPow2_two_pow (m : ℕ) : IsPow2 (2 ^ m) = true :=
  (isPow2_iff (2 ^ m)).mpr ⟨m, rfl⟩

theorem isPow2_one : IsPow2 1 = true := by decide

theorem Prepare_two_pow (m : ℕ) : Prepare (2 ^ m) = none := by
  simp [Prepare, isPow2_two_pow]

theorem isPow2_eq_false_iff (N : ℕ) : IsPow2 N = false ↔ ∀ m, N ≠ 2 ^ m := by
  rw [← Bool.not_eq_true, isPow2_iff]
  simp

/-! ### Claim C8: validation precedes mutation in FFT and IFFT -/

/-- Claim C8: for every buffer whose length is not a power of two, both
`FFT` and `IFFT` return an InputSizeError and leave the buffer exactly
as it was. -/
theorem C8_FFT_IFFT_reject_non_pow2 (x : List ℂ) (h : ∀ m, x.length ≠ 2 ^ m) :
    (∃ msg, FFT x = (some (GoFailure.inputSize msg), x)) ∧
    (∃ msg, IFFT x = (some (GoFailure.inputSize msg), x)) := by
  have hp : IsPow2 x.length = false := (isPow2_eq_false_iff x.length).mpr h
  constructor
  · refine ⟨"Input dimension must be power of 2", ?_⟩
    simp [FFT, getVars, Prepare, hp]
  · refine ⟨"Input dimension must be power of 2", ?_⟩
    simp [IFFT, getVars, Prepare, hp]

/-- Witness for C8 at the concrete length-3 buffer `[1, 2, 3]`. -/
theorem C8_FFT_IFFT_reject_non_pow2_witness :
    (∃ msg, FFT [1, 2, 3] = (some (GoFailure.inputSize msg), [1, 2, 3])) ∧
    (∃ msg, IFFT [1, 2, 3] = (some (GoFailure.inputSize msg), [1, 2, 3])) := by
  refine C8_FFT_IFFT_reject_non_pow2 [1, 2, 3] ?_
  intro m hm
  match m with
  | 0 => simp at hm
  | 1 => simp at hm
  | m + 2 =>
      have h4 : 4 ≤ 2 ^ (m + 2) := by
        calc (4:ℕ) = 2 ^ 2 := by norm_num
          _ ≤ 2 ^ (m + 2) := Nat.pow_le_pow_right (by norm_num) (by omega)
      simp only [List.length_cons, List.length_nil] at hm
      omega

/-! ### Claim C10: a single-block FastMultiConvolve is a no-op -/

theorem fmcLevels_self (fuel n : ℕ) : fmcLevels fuel n n = 0 := by
  cases fuel <;> simp [fmcLevels]

/-- Claim C10: when the buffer consists of exactly one power-of-two block
(`len X = n`), `FastMultiConvolve` succeeds and returns the buffer
unchanged: the merge loop runs zero levels. -/
theorem C10_fmc_single_block (X : List ℂ) (n m : ℕ) (hm : n = 2 ^ m)
    (hX : X.length = n) (mt : Bool) :
    FastMultiConvolve X n mt = Except.ok X := by
  subst hm
  have hn0 : (2 ^ m : ℕ) ≠ 0 := (Nat.pos_pow_of_pos m (by norm_num)).ne'
  have hdiv : IsPow2 (X.length / 2 ^ m) = true := by
    rw [hX, Nat.div_self (Nat.pos_of_ne_zero hn0)]; exact isPow2_one
  simp [FastMultiConvolve, hn0, hX, Nat.mod_self, isPow2_two_pow, hdiv,
    isPow2_one, Nat.div_self (Nat.pos_of_ne_zero hn0), fmcLevels_self]

/-- Witness for C10 at the concrete one-block buffer `[5, 7]` with
block length 2. -/
theorem C10_fmc_single_block_witness :
    FastMultiConvolve [5, 7] 2 true = Except.ok [5, 7] :=
  C10_fmc_single_block [5, 7] 2 1 (by norm_num) (by simp) true

/-! ### Claim C6: the FastConvolve error condition -/

/-- Counterexample to C6 as stated: two zero-length buffers have equal
non-power-of-two lengths (0 is not a power of two), yet `FastConvolve`
succeeds instead of returning an InputSizeError. -/
theorem C6_fastConvolve_empty_counterexample :
    FastConvolve ([] : List ℂ) [] = Except.ok ([], []) ∧ ∀ m : ℕ, (0 : ℕ) ≠ 2 ^ m := by
  constructor
  · rfl
  · intro m
    have := Nat.pos_pow_of_pos m (show 0 < 2 by norm_num)
    omega

/-- Claim C6 (amended): `FastConvolve x y` returns an InputSizeError iff
the buffers are not both empty and their lengths are not equal powers of
two; the both-empty case succeeds as a no-op by an explicit early
return. -/
theorem C6_fastConvolve_error_iff (x y : List ℂ) :
    (∃ msg, FastConvolve x y = Except.error (GoFailure.inputSize msg)) ↔
    (¬ (x.length = 0 ∧ y.length = 0) ∧
      ¬ (x.length = y.length ∧ ∃ m, x.length = 2 ^ m)) := by
  rw [← isPow2_iff]
  by_cases h0 : x.length = 0 ∧ y.length = 0
  · have hok : FastConvolve x y = Except.ok (x, y) := by
      unfold FastConvolve
      rw [if_pos h0]
    rw [hok]
    constructor
    · rintro ⟨msg, hmsg⟩; cases hmsg
    · rintro ⟨hA, _⟩; exact absurd h0 hA
  · by_cases hne : x.length = y.length
    · by_cases hp : IsPow2 x.length = true
      · have hok : FastConvolve x y =
            Except.ok (convolve x y x.length (roots x.length)
              (permutationIndex x.length)) := by
          unfold FastConvolve getVars Prepare
          rw [if_neg h0, if_neg (not_not_intro hne), if_pos hp]
        rw [hok]
        constructor
        · rintro ⟨msg, hmsg⟩; cases hmsg
        · rintro ⟨_, hB⟩; exact absurd ⟨hne, hp⟩ hB
      · have herr : FastConvolve x y =
            Except.error (GoFailure.inputSize
              "Input dimension must be power of 2") := by
          unfold FastConvolve getVars Prepare
          rw [if_neg h0, if_neg (not_not_intro hne), if_neg hp]
        rw [herr]
        constructor
        · intro _; exact ⟨h0, fun h => hp h.2⟩
        · intro _; exact ⟨_, rfl⟩
    · have herr : FastConvolve x y =
          Except.error (GoFailure.inputSize
            "x and y must have the same length") := by
        unfold FastConvolve
        rw [if_neg h0, if_pos hne]
      rw [herr]
      constructor
      · intro _; exact ⟨h0, fun h => hne h.1⟩
      · intro _; exact ⟨_, rfl⟩

/-! ### Claim C7: the FastMultiConvolve error condition -/

theorem fmc_fold_ok (N n0 a L : ℕ) (hn : n0 = 2 ^ a) (X : List ℂ) :
    ∃ Z, (List.range L).foldl (fmcBody N n0) (Except.ok X) = Except.ok Z := by
  induction L with
  | zero => exact ⟨X, rfl⟩
  | succ L IH =>
      obtain ⟨Z, hZ⟩ := IH
      rw [List.range_succ, List.foldl_append, hZ]
      refine ⟨fmcLevel Z N (n0 * 2 ^ L) (roots (n0 * 2 ^ L))
        (permutationIndex (n0 * 2 ^ L)), ?_⟩
      have hpw : n0 * 2 ^ L = 2 ^ (a + L) := by rw [hn, pow_add]
      simp [fmcBody, hpw, Prepare_two_pow]

/-- Counterexample to C7 as stated: with block length 0 (an invalid
shape) the source evaluates `len(X) % 0` and panics with a
division-by-zero run-time error instead of returning an InputSizeError. -/
theorem C7_fmc_zero_blocklength_counterexample :
    FastMultiConvolve ([0] : List ℂ) 0 false = Except.error GoFailure.panicDivideByZero ∧
    ∀ msg, FastMultiConvolve ([0] : List ℂ) 0 false ≠
      Except.error (GoFailure.inputSize msg) := by
  constructor
  · rfl
  · intro msg h
    simp [FastMultiConvolve] at h

/-- Claim C7 (amended): for every positive block length `n`,
`FastMultiConvolve X n multithread` returns an InputSizeError exactly
when the shape is invalid — `len X` not divisible by `n`, or `n` not a
power of two, or `len X / n` not a power of two; for `n = 0` the call
panics with a division by zero rather than returning an error. -/
theorem C7_fmc_error_iff (X : List ℂ) (n : ℕ) (hn : 1 ≤ n) (mt : Bool) :
    (∃ msg, FastMultiConvolve X n mt = Except.error (GoFailure.inputSize msg)) ↔
    ¬ (X.length % n = 0 ∧ (∃ a, n = 2 ^ a) ∧ ∃ b, X.length / n = 2 ^ b) := by
  have hn0 : ¬ n = 0 := by omega
  rw [← isPow2_iff, ← isPow2_iff]
  by_cases h1 : X.length % n = 0
  · by_cases h2 : IsPow2 n = true
    · by_cases h3 : IsPow2 (X.length / n) = true
      · obtain ⟨a, ha⟩ := (isPow2_iff n).mp h2
        obtain ⟨Z, hZ⟩ := fmc_fold_ok X.length n a (fmcLevels X.length n X.length) ha X
        simp [FastMultiConvolve, hn0, h1, h2, h3, hZ]
      · simp [FastMultiConvolve, hn0, h1, h2, h3]
    · simp [FastMultiConvolve, hn0, h1, h2]
  · simp [FastMultiConvolve, hn0, h1]

/-- Witness for C7 at concrete invalid and valid shapes is provided by
the hypothesis side only: instantiate at `n = 3`, `X = [0, 0, 0, 0]`
(block length not a power of two, so an InputSizeError is returned). -/
theorem C7_fmc_error_iff_witness :
    (∃ msg, FastMultiConvolve ([0, 0, 0, 0] : List ℂ) 3 false =
      Except.error (GoFailure.inputSize msg)) ↔
    ¬ ((4 : ℕ) % 3 = 0 ∧ (∃ a, (3 : ℕ) = 2 ^ a) ∧ ∃ b, (4 : ℕ) / 3 = 2 ^ b) := by
  have h := C7_fmc_error_iff ([0, 0, 0, 0] : List ℂ) 3 (by norm_num) false
  simpa using h

/-! ### List toolkit -/

theorem getD_set_self {α : Type} (l : List α) (i : ℕ) (a d : α)
    (h : i < l.length) : (l.set i a).getD i d = a := by
  simp [List.getD, List.getElem?_set_eq_of_lt, h]

theorem getD_set_ne {α : Type} (l : List α) (i j : ℕ) (a d : α)
    (h : i ≠ j) : (l.set i a).getD j d = l.getD j d := by
  simp [List.getD, List.getElem?_set_ne h]

theorem getD_drop {α : Type} (l : List α) (n i : ℕ) (d : α) :
    (l.drop n).getD i d = l.getD (n + i) d := by
  simp [List.getD, List.getElem?_drop]

theorem foldl_length_eq {α β : Type} (f : List α → β → List α) (l : List β)
    (s : List α) (h : ∀ s a, a ∈ l → (f s a).length = s.length) :
    (l.foldl f s).length = s.length := by
  induction l generalizing s with
  | nil => rfl
  | cons a l IH =>
      rw [List.foldl_cons, IH _ (fun s b hb => h s b (List.mem_cons_of_mem a hb)),
        h s a (List.mem_cons_self a l)]

/-! ### Length preservation of the in-place kernels -/

theorem length_listSwap (x : List K) (i j : ℕ) :
    (listSwap x i j).length = x.length := by
  simp [listSwap]

theorem length_butterflyAt (x F : List K) (fi a b : ℕ) :
    (butterflyAt x F fi a b).length = x.length := by
  simp [butterflyAt]

theorem length_fftStage (x F : List K) (N s n : ℕ) :
    (fftStage x F N s n).length = x.length := by
  refine foldl_length_eq _ _ _ (fun y g _ => ?_)
  refine foldl_length_eq _ _ _ (fun z k _ => ?_)
  exact length_butterflyAt z F (k * s) (k + 2 * n * g) (k + 2 * n * g + n)

theorem length_fftButterfly (x : List K) (N : ℕ) (F : List K) :
    (fftButterfly x N F).length = x.length := by
  refine foldl_length_eq _ _ _ (fun y t _ => ?_)
  exact length_fftStage y F N (N >>> (t + 1)) (2 ^ t)

theorem length_permute (x : List K) (perm : List ℕ) (N : ℕ) :
    (permute x perm N).length = x.length := by
  refine foldl_length_eq _ _ _ (fun y i _ => ?_)
  exact length_listSwap y i (perm.getD i 0)

theorem length_fft (x : List K) (N : ℕ) (F : List K) (perm : List ℕ) :
    (fft x N F perm).length = x.length := by
  unfold fft
  by_cases h1 : N = 1
  · simp [h1]
  by_cases h2 : N = 2
  · simp [h1, h2, length_butterflyAt]
  by_cases h4 : N = 4
  · simp [h1, h2, h4, length_butterflyAt, length_listSwap]
  · simp [h1, h2, h4, length_fftButterfly, length_permute]

theorem length_ifftRev (x : List K) (N : ℕ) :
    (ifftRev x N).length = x.length := by
  refine foldl_length_eq _ _ _ (fun y i _ => ?_)
  exact length_listSwap y i (N - i)

theorem length_ifftScale (x : List K) (N : ℕ) (c : K) :
    (ifftScale x N c).length = x.length := by
  refine foldl_length_eq _ _ _ (fun y i _ => ?_)
  simp

theorem length_ifft (x : List K) (N : ℕ) (F : List K) (perm : List ℕ) :
    (ifft x N F perm).length = x.length := by
  rw [ifft, length_ifftScale, length_fft, length_ifftRev]

/-! ### Claim C5: MultiConvolve with zero inputs -/

/-- Claim C5 (code bug): with zero input sequences the merge loop deletes
bucket 1 and the final `arraysByLength[mx][0][:returnLength]` indexes the
now-absent bucket — an index-out-of-range panic, not the empty result
that the spec (and the package test TestMultiConvolve) promise. -/
theorem C5_multiConvolve_empty_input_panics :
    MultiConvolve [] = Except.error GoFailure.panicIndexOutOfRange := rfl

/-! ### Claim C2: the FastConvolve success postcondition -/

theorem convolve_mul_loop (x1 y1 : List K) (N : ℕ) (hx : x1.length = N)
    (hy : y1.length = N) :
    (List.range N).foldl (fun (p : List K × List K) i =>
      (p.1.set i (p.1.getD i 0 * p.2.getD i 0), p.2.set i 0)) (x1, y1) =
    (List.zipWith (fun a b => a * b) x1 y1, List.replicate N 0) := by
  suffices h : ∀ m, m ≤ N →
      (List.range m).foldl (fun (p : List K × List K) i =>
        (p.1.set i (p.1.getD i 0 * p.2.getD i 0), p.2.set i 0)) (x1, y1) =
      (List.zipWith (fun a b => a * b) (x1.take m) (y1.take m) ++ x1.drop m,
        List.replicate m 0 ++ y1.drop m) by
    have := h N le_rfl
    rw [this, List.take_of_length_le hx.le, List.take_of_length_le hy.le,
      List.drop_of_length_le hx.le, List.drop_of_length_le hy.le,
      List.append_nil, List.append_nil]
  intro m hm
  induction m with
  | zero => simp
  | succ m IH =>
      have hm1 : m ≤ N := by omega
      have hmx : m < x1.length := by omega
      have hmy : m < y1.length := by omega
      have hZlen : (List.zipWith (fun a b => a * b) (x1.take m) (y1.take m)).length = m := by
        rw [List.length_zipWith, List.length_take, List.length_take]
        omega
      have hRlen : (List.replicate m (0:K)).length = m := List.length_replicate m 0
      rw [List.range_succ, List.foldl_append, IH hm1]
      simp only [List.foldl_cons, List.foldl_nil, Prod.mk.injEq]
      constructor
      case _ =>
        -- first component
        rw [List.getD_append_right _ _ _ _ hZlen.le, hZlen, Nat.sub_self,
          getD_drop, Nat.add_zero]
        rw [List.getD_append_right _ _ _ _ hRlen.le, hRlen, Nat.sub_self,
          getD_drop, Nat.add_zero]
        rw [List.set_append_right _ _ hZlen.le, hZlen, Nat.sub_self]
        rw [List.drop_eq_getElem_cons hmx]
        rw [List.take_succ, List.take_succ]
        rw [List.getElem?_eq_getElem hmx, List.getElem?_eq_getElem hmy]
        simp only [Option.toList_some]
        rw [List.zipWith_append _ _ _ _ _ (by rw [List.length_take, List.length_take]; omega)]
        rw [List.set_cons_zero]
        simp [List.getD, List.get?_eq_getElem?, List.getElem?_eq_getElem hmx,
          List.getElem?_eq_getElem hmy]
      case _ =>
        -- second component
        rw [List.set_append_right _ _ hRlen.le, hRlen, Nat.sub_self]
        rw [List.drop_eq_getElem_cons hmy, List.set_cons_zero,
          List.replicate_succ' m 0]
        simp

/-- Claim C2: on equal power-of-two-length inputs, `FastConvolve`
succeeds, the second buffer comes back all zeros, and the first comes
back as the inverse transform of the elementwise product of the forward
transforms of the two original buffers. -/
theorem C2_fastConvolve_post (x y : List ℂ) (m : ℕ) (hx : x.length = 2 ^ m)
    (hy : y.length = 2 ^ m) :
    FastConvolve x y = Except.ok
      (ifft (List.zipWith (fun a b => a * b)
          (fft x (2 ^ m) (roots (2 ^ m)) (permutationIndex (2 ^ m)))
          (fft y (2 ^ m) (roots (2 ^ m)) (permutationIndex (2 ^ m))))
        (2 ^ m) (roots (2 ^ m)) (permutationIndex (2 ^ m)),
       List.replicate (2 ^ m) 0) := by
  have hpos : 0 < 2 ^ m := Nat.pos_pow_of_pos m (by norm_num)
  have h0 : ¬ (x.length = 0 ∧ y.length = 0) := by
    rintro ⟨h, _⟩; omega
  have hne : x.length = y.length := by omega
  have hp : IsPow2 x.length = true := by rw [hx]; exact isPow2_two_pow m
  have hok : FastConvolve x y =
      Except.ok (convolve x y x.length (roots x.length)
        (permutationIndex x.length)) := by
    unfold FastConvolve getVars Prepare
    rw [if_neg h0, if_neg (not_not_intro hne), if_pos hp]
  rw [hok, hx]
  simp only [convolve]
  rw [convolve_mul_loop _ _ _ (by rw [length_fft, hx]) (by rw [length_fft, hy])]

/-- Witness for C2 at the concrete buffers `[1, 2]` and `[3, 4]`. -/
theorem C2_fastConvolve_post_witness :
    FastConvolve [1, 2] [3, 4] = Except.ok
      (ifft (List.zipWith (fun a b => a * b)
          (fft [1, 2] (2 ^ 1) (roots (2 ^ 1)) (permutationIndex (2 ^ 1)))
          (fft [3, 4] (2 ^ 1) (roots (2 ^ 1)) (permutationIndex (2 ^ 1))))
        (2 ^ 1) (roots (2 ^ 1)) (permutationIndex (2 ^ 1)),
       List.replicate (2 ^ 1) 0) :=
  C2_fastConvolve_post [1, 2] [3, 4] 1 (by simp) (by simp)

/-! ### Claim C3: ifft as reverse-then-fft-then-scale -/

theorem listSwap_getD_left (y : List K) (i j : ℕ) (hi : i < y.length)
    (hj : j < y.length) : (listSwap y i j).getD i 0 = y.getD j 0 := by
  by_cases h : i = j
  · subst h
    rw [listSwap, getD_set_self _ _ _ _ (by simpa using hi)]
  · rw [listSwap, getD_set_ne _ _ _ _ _ (Ne.symm h),
      getD_set_self _ _ _ _ hi]

theorem listSwap_getD_right (y : List K) (i j : ℕ) (hj : j < y.length) :
    (listSwap y i j).getD j 0 = y.getD i 0 := by
  rw [listSwap, getD_set_self _ _ _ _ (by simpa using hj)]

theorem listSwap_getD_other (y : List K) (i j p : ℕ) (hpi : p ≠ i)
    (hpj : p ≠ j) : (listSwap y i j).getD p 0 = y.getD p 0 := by
  rw [listSwap, getD_set_ne _ _ _ _ _ (Ne.symm hpj), getD_set_ne _ _ _ _ _ (Ne.symm hpi)]

theorem list_ext_getD {α : Type} (a b : List α) (d : α)
    (hl : a.length = b.length)
    (h : ∀ p, p < a.length → a.getD p d = b.getD p d) : a = b := by
  apply List.ext_getElem hl
  intro p h1 h2
  have hp := h p h1
  rwa [List.getD, List.getD, List.get?_eq_getElem?, List.get?_eq_getElem?,
    List.getElem?_eq_getElem h1, List.getElem?_eq_getElem h2,
    Option.getD_some, Option.getD_some] at hp

theorem getD_map_range {α : Type} (N p : ℕ) (f : ℕ → α) (d : α) (hp : p < N) :
    ((List.range N).map f).getD p d = f p := by
  simp [List.getD, List.getElem?_map, List.getElem?_range hp]

/-- The interior-reversal invariant: after the swaps at `i = 1 .. t`
(each exchanging `i` with `N - i`), positions in `[1, t]` and
`[N - t, N - 1]` hold the mirrored entries and all others are
untouched. -/
theorem ifftRev_invariant (x : List K) (N : ℕ) (hx : x.length = N) (t : ℕ)
    (ht : 2 * t + 2 ≤ N) :
    ((List.range' 1 t).foldl (fun y i => listSwap y i (N - i)) x).length = N ∧
    ∀ p, p < N →
      ((List.range' 1 t).foldl (fun y i => listSwap y i (N - i)) x).getD p 0 =
      if (1 ≤ p ∧ p ≤ t) ∨ (N - t ≤ p ∧ p ≤ N - 1) then x.getD (N - p) 0
      else x.getD p 0 := by
  induction t with
  | zero =>
      refine ⟨by simpa using hx, fun p hp => ?_⟩
      have hc : ¬ ((1 ≤ p ∧ p ≤ 0) ∨ (N - 0 ≤ p ∧ p ≤ N - 1)) := by omega
      rw [show List.range' 1 0 = ([] : List ℕ) from rfl, List.foldl_nil, if_neg hc]
  | succ t IH =>
      obtain ⟨IHlen, IHget⟩ := IH (by omega)
      set s := (List.range' 1 t).foldl (fun y i => listSwap y i (N - i)) x with hs
      have hstep : (List.range' 1 (t + 1)).foldl (fun y i => listSwap y i (N - i)) x =
          listSwap s (t + 1) (N - (t + 1)) := by
        rw [List.range'_1_concat, List.foldl_append, ← hs]
        simp [Nat.add_comm 1 t]
      have hi1 : t + 1 < s.length := by omega
      have hj1 : N - (t + 1) < s.length := by omega
      refine ⟨by rw [hstep, length_listSwap, IHlen], fun p hp => ?_⟩
      rw [hstep]
      by_cases hpi : p = t + 1
      · subst hpi
        rw [listSwap_getD_left s _ _ hi1 hj1, IHget _ (by omega)]
        rw [if_neg (show ¬ ((1 ≤ N - (t+1) ∧ N - (t+1) ≤ t) ∨
          (N - t ≤ N - (t+1) ∧ N - (t+1) ≤ N - 1)) by omega)]
        rw [if_pos (show (1 ≤ t + 1 ∧ t + 1 ≤ t + 1) ∨
          (N - (t+1) ≤ t + 1 ∧ t + 1 ≤ N - 1) from Or.inl (by omega))]
      · by_cases hpj : p = N - (t + 1)
        · subst hpj
          rw [listSwap_getD_right s _ _ hj1, IHget _ (by omega)]
          rw [if_neg (show ¬ ((1 ≤ t + 1 ∧ t + 1 ≤ t) ∨
            (N - t ≤ t + 1 ∧ t + 1 ≤ N - 1)) by omega)]
          rw [if_pos (show (1 ≤ N - (t+1) ∧ N - (t+1) ≤ t + 1) ∨
            (N - (t+1) ≤ N - (t+1) ∧ N - (t+1) ≤ N - 1) from Or.inr (by omega))]
          have hval : N - (N - (t + 1)) = t + 1 := by omega
          rw [hval]
        · rw [listSwap_getD_other s _ _ _ hpi hpj, IHget _ hp]
          have : ((1 ≤ p ∧ p ≤ t) ∨ (N - t ≤ p ∧ p ≤ N - 1)) ↔
              ((1 ≤ p ∧ p ≤ t + 1) ∨ (N - (t+1) ≤ p ∧ p ≤ N - 1)) := by omega
          rw [if_congr this rfl rfl]

/-- Modelled on the spec wording for `inverseTransform`: position 0 is
fixed and every other position `i` receives the entry at index `N - i`
(the net effect of the exchanges `x[i] <-> x[N-i]` for `i` in
`1 .. N/2-1`). -/
def reverseInteriorSpec (x : List K) (N : ℕ) : List K :=
  (List.range N).map (fun p => if p = 0 then x.getD 0 0 else x.getD (N - p) 0)

/-- Modelled on the spec wording: scale every element by the given
constant. -/
def scaleSpec (x : List K) (c : K) : List K :=
  x.map (fun a => a * c)

theorem ifftRev_eq_spec (x : List K) (N : ℕ) (hx : x.length = N)
    (he : N % 2 = 0 ∨ N = 1) : ifftRev x N = reverseInteriorSpec x N := by
  rcases he with he | he
  · rcases Nat.eq_zero_or_pos N with h0 | hpos
    · subst h0
      have hx0 : x = [] := List.eq_nil_of_length_eq_zero hx
      subst hx0
      rfl
    · have ht : 2 * (N / 2 - 1) + 2 ≤ N := by omega
      obtain ⟨hlen, hget⟩ := ifftRev_invariant x N hx (N / 2 - 1) ht
      refine list_ext_getD _ _ 0 ?_ ?_
      · rw [ifftRev, hlen, reverseInteriorSpec, List.length_map, List.length_range]
      · intro p hp
        have hpN : p < N := by rwa [ifftRev, hlen] at hp
        rw [ifftRev, hget p hpN, reverseInteriorSpec, getD_map_range _ _ _ _ hpN]
        by_cases hp0 : p = 0
        · subst hp0
          rw [if_neg (show ¬ ((1 ≤ 0 ∧ 0 ≤ N / 2 - 1) ∨
            (N - (N / 2 - 1) ≤ 0 ∧ 0 ≤ N - 1)) by omega)]
          rw [if_pos rfl]
        · by_cases hmid : p = N / 2
          · subst hmid
            rw [if_neg (show ¬ ((1 ≤ N / 2 ∧ N / 2 ≤ N / 2 - 1) ∨
              (N - (N / 2 - 1) ≤ N / 2 ∧ N / 2 ≤ N - 1)) by omega)]
            rw [if_neg hp0]
            have hv : N - N / 2 = N / 2 := by omega
            rw [hv]
          · rw [if_pos (show (1 ≤ p ∧ p ≤ N / 2 - 1) ∨
              (N - (N / 2 - 1) ≤ p ∧ p ≤ N - 1) by omega)]
            rw [if_neg hp0]
  · subst he
    match x, hx with
    | [a], _ =>
        rw [ifftRev, show List.range' 1 (1 / 2 - 1) = ([] : List ℕ) from rfl,
          List.foldl_nil, reverseInteriorSpec,
          show List.range 1 = [0] from rfl]
        simp

theorem ifftScale_eq_map (y : List K) (N : ℕ) (c : K) (hy : y.length = N) :
    ifftScale y N c = y.map (fun a => a * c) := by
  suffices h : ∀ m, m ≤ N →
      (List.range m).foldl (fun yy i => yy.set i (yy.getD i 0 * c)) y =
      (y.take m).map (fun a => a * c) ++ y.drop m by
    have hN := h N le_rfl
    rw [ifftScale, hN, List.take_of_length_le hy.le, List.drop_of_length_le hy.le,
      List.append_nil]
  intro m hm
  induction m with
  | zero => simp
  | succ m IH =>
      have hm1 : m ≤ N := by omega
      have hmy : m < y.length := by omega
      have hMlen : ((y.take m).map (fun a => a * c)).length = m := by
        rw [List.length_map, List.length_take]; omega
      rw [List.range_succ, List.foldl_append, IH hm1]
      simp only [List.foldl_cons, List.foldl_nil]
      rw [List.getD_append_right _ _ _ _ hMlen.le, hMlen, Nat.sub_self,
        getD_drop, Nat.add_zero]
      rw [List.set_append_right _ _ hMlen.le, hMlen, Nat.sub_self]
      rw [List.drop_eq_getElem_cons hmy, List.set_cons_zero]
      rw [List.take_succ, List.getElem?_eq_getElem hmy]
      simp only [List.getD, List.get?_eq_getElem?, List.getElem?_eq_getElem hmy,
        Option.getD_some, Option.toList_some, List.map_append, List.map_cons,
        List.map_nil, List.append_assoc, List.singleton_append]

/-- Claim C3: the embedded `ifft` is exactly the composition of the
spec-described interior reversal, the embedded forward `fft`, and the
spec-described scaling of every element by `1/N`. -/
theorem C3_ifft_is_reverse_fft_scale (x : List ℂ) (m : ℕ)
    (hx : x.length = 2 ^ m) (F : List ℂ) (perm : List ℕ) :
    ifft x (2 ^ m) F perm =
      scaleSpec (fft (reverseInteriorSpec x (2 ^ m)) (2 ^ m) F perm)
        (((2 ^ m : ℕ) : ℂ))⁻¹ := by
  have he : (2 ^ m) % 2 = 0 ∨ (2 ^ m) = 1 := by
    match m with
    | 0 => exact Or.inr rfl
    | m + 1 => exact Or.inl (by simp [pow_succ, Nat.mul_mod_left])
  rw [ifft, ifftRev_eq_spec x (2 ^ m) hx he, scaleSpec]
  exact ifftScale_eq_map _ _ _ (by
    rw [length_fft, reverseInteriorSpec, List.length_map, List.length_range])

/-- Witness for C3 at the concrete buffer `[1, 2, 3, 4]` (with the real
tables of length 4). -/
theorem C3_ifft_is_reverse_fft_scale_witness :
    ifft [1, 2, 3, 4] (2 ^ 2) (roots (2 ^ 2)) (permutationIndex (2 ^ 2)) =
      scaleSpec (fft (reverseInteriorSpec [1, 2, 3, 4] (2 ^ 2)) (2 ^ 2)
        (roots (2 ^ 2)) (permutationIndex (2 ^ 2))) (((2 ^ 2 : ℕ) : ℂ))⁻¹ :=
  C3_ifft_is_reverse_fft_scale [1, 2, 3, 4] 2 (by simp)
    (roots (2 ^ 2)) (permutationIndex (2 ^ 2))

/-! ### Claim C9: Convolve leaves its argument buffers unchanged -/

theorem getD_append_of_lt (s : Store) (l : List (List ℂ)) (p : ℕ)
    (hp : p < s.length) : (s ++ l).getD p [] = s.getD p [] :=
  List.getD_append s l [] p hp

/-- Claim C9: in the store model, `Convolve` never writes to the two
argument buffers: it allocates fresh zero-padded copies and hands only
those to the destructive `FastConvolve`, so after the call (successful
or not) both original buffers are unchanged. -/
theorem C9_convolve_preserves_inputs (s : Store) (xb yb : ℕ)
    (hx : xb < s.length) (hy : yb < s.length) :
    (ConvolveS s xb yb).1.getD xb [] = s.getD xb [] ∧
    (ConvolveS s xb yb).1.getD yb [] = s.getD yb [] := by
  rw [ConvolveS]
  by_cases h0 : (s.getD xb []).length = 0 ∧ (s.getD yb []).length = 0
  · rw [if_pos h0]
    exact ⟨rfl, rfl⟩
  · rw [if_neg h0]
    simp only [ZeroPadS, FastConvolveS]
    set N := NextPow2 ((s.getD xb []).length + (s.getD yb []).length - 1) with hN
    set A := ZeroPad (s.getD xb []) N with hA
    set s1 := s ++ [A] with hs1
    set B := ZeroPad (s1.getD yb []) N with hB
    set s2 := s1 ++ [B] with hs2
    have hxb1 : xb < s1.length := by rw [hs1, List.length_append]; omega
    have hyb1 : yb < s1.length := by rw [hs1, List.length_append]; omega
    have hxb2 : xb < s2.length := by rw [hs2, List.length_append]; omega
    have hyb2 : yb < s2.length := by rw [hs2, List.length_append]; omega
    have hg2x : s2.getD xb [] = s.getD xb [] := by
      rw [hs2, getD_append_of_lt s1 [B] xb hxb1, hs1, getD_append_of_lt s [A] xb hx]
    have hg2y : s2.getD yb [] = s.getD yb [] := by
      rw [hs2, getD_append_of_lt s1 [B] yb hyb1, hs1, getD_append_of_lt s [A] yb hy]
    cases hFC : FastConvolve (s2.getD s.length []) (s2.getD (s1.length) []) with
    | error e =>
        simp only [hFC]
        exact ⟨hg2x, hg2y⟩
    | ok xy =>
        simp only [hFC]
        have hxne1 : xb ≠ s.length := by omega
        have hxne2 : xb ≠ s1.length := by rw [hs1, List.length_append]; simp; omega
        have hyne1 : yb ≠ s.length := by omega
        have hyne2 : yb ≠ s1.length := by rw [hs1, List.length_append]; simp; omega
        constructor
        · rw [getD_set_ne _ _ _ _ _ (Ne.symm hxne2), getD_set_ne _ _ _ _ _ (Ne.symm hxne1)]
          exact hg2x
        · rw [getD_set_ne _ _ _ _ _ (Ne.symm hyne2), getD_set_ne _ _ _ _ _ (Ne.symm hyne1)]
          exact hg2y

/-- Witness for C9 at the concrete two-buffer store
`[[1, 2], [3]]` (buffer 0 convolved with buffer 1). -/
theorem C9_convolve_preserves_inputs_witness :
    (ConvolveS [[1, 2], [3]] 0 1).1.getD 0 [] = ([[1, 2], [3]] : Store).getD 0 [] ∧
    (ConvolveS [[1, 2], [3]] 0 1).1.getD 1 [] = ([[1, 2], [3]] : Store).getD 1 [] :=
  C9_convolve_preserves_inputs [[1, 2], [3]] 0 1 (by norm_num) (by norm_num)

/-! ### Bit reversal -/

/-- Reversal of the `m` low bits of `i` (the mathematical notion the
permutation table realises): peel the least significant bit and plant it
at the top. -/
def bitRev : ℕ → ℕ → ℕ
  | 0, _ => 0
  | m + 1, i => bitRev m (i / 2) + (i % 2) * 2 ^ m

theorem bitRev_lt (m : ℕ) : ∀ i, bitRev m i < 2 ^ m := by
  induction m with
  | zero => intro i; simp [bitRev]
  | succ m IH =>
      intro i
      have h1 := IH (i / 2)
      have h2 : i % 2 ≤ 1 := by omega
      have : bitRev (m + 1) i = bitRev m (i / 2) + (i % 2) * 2 ^ m := rfl
      rw [this, pow_succ]
      nlinarith

theorem bitRev_zero (m : ℕ) : bitRev m 0 = 0 := by
  induction m with
  | zero => rfl
  | succ m IH => simp [bitRev, IH]

theorem bitRev_low (m i : ℕ) (hi : i < 2 ^ m) :
    bitRev (m + 1) i = 2 * bitRev m i := by
  induction m generalizing i with
  | zero =>
      interval_cases i
      rfl
  | succ m IH =>
      have hhalf : i / 2 < 2 ^ m := by omega
      have h1 : bitRev (m + 2) i = bitRev (m + 1) (i / 2) + (i % 2) * 2 ^ (m + 1) := rfl
      have h2 : bitRev (m + 1) i = bitRev m (i / 2) + (i % 2) * 2 ^ m := rfl
      rw [h1, IH (i / 2) hhalf, h2]
      ring

theorem bitRev_high (m i : ℕ) (hi : i < 2 ^ m) :
    bitRev (m + 1) (i + 2 ^ m) = 2 * bitRev m i + 1 := by
  induction m generalizing i with
  | zero =>
      interval_cases i
      rfl
  | succ m IH =>
      have hhalf : i / 2 < 2 ^ m := by omega
      have hdiv : (i + 2 ^ (m + 1)) / 2 = i / 2 + 2 ^ m := by
        rw [pow_succ]
        omega
      have hmod : (i + 2 ^ (m + 1)) % 2 = i % 2 := by
        rw [pow_succ]
        omega
      have h1 : bitRev (m + 2) (i + 2 ^ (m + 1)) =
          bitRev (m + 1) ((i + 2 ^ (m + 1)) / 2) + ((i + 2 ^ (m + 1)) % 2) * 2 ^ (m + 1) := rfl
      have h2 : bitRev (m + 1) i = bitRev m (i / 2) + (i % 2) * 2 ^ m := rfl
      rw [h1, hdiv, hmod, IH (i / 2) hhalf, h2]
      ring

theorem bitRev_bitRev (m : ℕ) : ∀ i, i < 2 ^ m → bitRev m (bitRev m i) = i := by
  induction m with
  | zero => intro i hi; interval_cases i; rfl
  | succ m IH =>
      intro i hi
      have hhalf : i / 2 < 2 ^ m := by omega
      have hio : i % 2 = 0 ∨ i % 2 = 1 := by omega
      have hstep : bitRev (m + 1) i = bitRev m (i / 2) + (i % 2) * 2 ^ m := rfl
      rcases hio with h | h
      · rw [hstep, h]
        simp only [Nat.zero_mul, Nat.add_zero]
        rw [bitRev_low m (bitRev m (i / 2)) (bitRev_lt m (i / 2)), IH (i / 2) hhalf]
        omega
      · rw [hstep, h]
        simp only [Nat.one_mul]
        rw [bitRev_high m (bitRev m (i / 2)) (bitRev_lt m (i / 2)), IH (i / 2) hhalf]
        omega

theorem bitRev_last (m : ℕ) : bitRev m (2 ^ m - 1) = 2 ^ m - 1 := by
  induction m with
  | zero => rfl
  | succ m IH =>
      have h1 : (2 : ℕ) ^ (m + 1) - 1 = (2 ^ m - 1) + 2 ^ m := by
        have := Nat.one_le_two_pow (n := m)
        rw [pow_succ]
        omega
      rw [h1, bitRev_high m (2 ^ m - 1)
        (by have := Nat.one_le_two_pow (n := m); omega), IH]
      have := Nat.one_le_two_pow (n := m)
      omega

theorem bitRev_eq_zero_iff (m i : ℕ) (hi : i < 2 ^ m) :
    bitRev m i = 0 ↔ i = 0 := by
  constructor
  · intro h
    have := bitRev_bitRev m i hi
    rw [h, bitRev_zero] at this
    omega
  · rintro rfl
    exact bitRev_zero m

/-! ### The doubling phase builds the raw bit-reversal table -/

theorem pow2StagesAux_pow (fuel t m : ℕ) (ht : t ≤ m) (hf : m - t ≤ fuel) :
    pow2StagesAux fuel (2 ^ t) (2 ^ m) = m - t := by
  induction fuel generalizing t with
  | zero =>
      have : t = m := by omega
      subst this
      simp [pow2StagesAux]
  | succ fuel IH =>
      by_cases h : t < m
      · have hlt : (2 : ℕ) ^ t < 2 ^ m := Nat.pow_lt_pow_right (by norm_num) h
        have hstep : pow2StagesAux (fuel + 1) (2 ^ t) (2 ^ m) =
            pow2StagesAux fuel (2 * 2 ^ t) (2 ^ m) + 1 := by
          simp [pow2StagesAux, hlt]
        rw [hstep, show (2 : ℕ) * 2 ^ t = 2 ^ (t + 1) from (pow_succ 2 t).symm ▸ by ring,
          IH (t + 1) (by omega) (by omega)]
        omega
      · have : t = m := by omega
        subst this
        simp [pow2StagesAux]

theorem pow2Stages_pow (m : ℕ) : pow2Stages (2 ^ m) = m := by
  have h1 : (2 : ℕ) ^ 0 = 1 := rfl
  have := pow2StagesAux_pow (2 ^ m) 0 m (by omega)
    (by have := Nat.lt_two_pow m; omega)
  rw [pow2Stages, ← h1]
  simpa using this

theorem piDoubleStep_invariant (ind : List ℕ) (t N : ℕ) (hlen : ind.length = N)
    (hn : 2 ^ (t + 1) ≤ N) (h : ∀ i, i < 2 ^ t → ind.getD i 0 = bitRev t i)
    (r : ℕ) (hr : r ≤ 2 ^ t) :
    ((List.range r).foldl (fun ind i =>
        let v := 2 * ind.getD i 0
        (ind.set i v).set (i + 2 ^ t) (v + 1)) ind).length = N ∧
    (∀ i, i < r → ((List.range r).foldl (fun ind i =>
        let v := 2 * ind.getD i 0
        (ind.set i v).set (i + 2 ^ t) (v + 1)) ind).getD i 0 = 2 * bitRev t i) ∧
    (∀ i, i < r → ((List.range r).foldl (fun ind i =>
        let v := 2 * ind.getD i 0
        (ind.set i v).set (i + 2 ^ t) (v + 1)) ind).getD (i + 2 ^ t) 0 =
        2 * bitRev t i + 1) ∧
    (∀ i, r ≤ i → i < 2 ^ t → ((List.range r).foldl (fun ind i =>
        let v := 2 * ind.getD i 0
        (ind.set i v).set (i + 2 ^ t) (v + 1)) ind).getD i 0 = ind.getD i 0) := by
  induction r with
  | zero =>
      exact ⟨hlen, fun i hi => absurd hi (by omega), fun i hi => absurd hi (by omega),
        fun i _ _ => rfl⟩
  | succ r IH =>
      obtain ⟨IHlen, IHlow, IHhigh, IHkeep⟩ := IH (by omega)
      set s := (List.range r).foldl (fun ind i =>
        let v := 2 * ind.getD i 0
        (ind.set i v).set (i + 2 ^ t) (v + 1)) ind with hs
      have hpeel : (List.range (r + 1)).foldl (fun ind i =>
          let v := 2 * ind.getD i 0
          (ind.set i v).set (i + 2 ^ t) (v + 1)) ind =
          (s.set r (2 * s.getD r 0)).set (r + 2 ^ t) (2 * s.getD r 0 + 1) := by
        rw [List.range_succ, List.foldl_append, ← hs]
        simp
      have hval : s.getD r 0 = bitRev t r := by
        rw [IHkeep r le_rfl (by omega), h r (by omega)]
      have hrN : r < N := by
        have := Nat.pow_lt_pow_right (show 1 < 2 by norm_num) (show t < t + 1 by omega)
        omega
      have hrnN : r + 2 ^ t < N := by
        have : (2 : ℕ) ^ (t + 1) = 2 ^ t + 2 ^ t := by rw [pow_succ]; ring
        omega
      have hlen1 : ((s.set r (2 * s.getD r 0)).set (r + 2 ^ t)
          (2 * s.getD r 0 + 1)).length = N := by
        simp [IHlen]
      refine ⟨by rw [hpeel]; exact hlen1, ?_, ?_, ?_⟩
      · intro i hi
        rw [hpeel]
        by_cases hir : i = r
        · subst hir
          rw [getD_set_ne _ _ _ _ _ (by omega), getD_set_self _ _ _ _ (by simp [IHlen]; omega),
            hval]
        · rw [getD_set_ne _ _ _ _ _ (by omega), getD_set_ne _ _ _ _ _ (by omega)]
          exact IHlow i (by omega)
      · intro i hi
        rw [hpeel]
        by_cases hir : i = r
        · subst hir
          rw [getD_set_self _ _ _ _ (by simp [IHlen]; omega), hval]
        · rw [getD_set_ne _ _ _ _ _ (by omega), getD_set_ne _ _ _ _ _ (by omega)]
          exact IHhigh i (by omega)
      · intro i hi1 hi2
        rw [hpeel]
        rw [getD_set_ne _ _ _ _ _ (by omega), getD_set_ne _ _ _ _ _ (by omega)]
        exact IHkeep i (by omega) hi2

theorem piDoubleStep_correct (ind : List ℕ) (t N : ℕ) (hlen : ind.length = N)
    (hn : 2 ^ (t + 1) ≤ N) (h : ∀ i, i < 2 ^ t → ind.getD i 0 = bitRev t i) :
    (piDoubleStep ind (2 ^ t)).length = N ∧
    ∀ i, i < 2 ^ (t + 1) → (piDoubleStep ind (2 ^ t)).getD i 0 = bitRev (t + 1) i := by
  obtain ⟨hl, hlow, hhigh, _⟩ := piDoubleStep_invariant ind t N hlen hn h (2 ^ t) le_rfl
  refine ⟨hl, fun i hi => ?_⟩
  have hsplit : (2 : ℕ) ^ (t + 1) = 2 ^ t + 2 ^ t := by rw [pow_succ]; ring
  by_cases hcase : i < 2 ^ t
  · rw [piDoubleStep, hlow i hcase, bitRev_low t i hcase]
  · have hj : i - 2 ^ t < 2 ^ t := by omega
    have hi2 : i = (i - 2 ^ t) + 2 ^ t := by omega
    rw [piDoubleStep, hi2, hhigh (i - 2 ^ t) hj, bitRev_high t (i - 2 ^ t) hj]

theorem piDouble_phase (m u : ℕ) (hu : u ≤ m) :
    ((List.range u).foldl (fun ind t => piDoubleStep ind (2 ^ t))
      ((List.replicate (2 ^ m) 0).set 0 0)).length = 2 ^ m ∧
    ∀ i, i < 2 ^ u → ((List.range u).foldl (fun ind t => piDoubleStep ind (2 ^ t))
      ((List.replicate (2 ^ m) 0).set 0 0)).getD i 0 = bitRev u i := by
  induction u with
  | zero =>
      refine ⟨by simp, fun i hi => ?_⟩
      have hi0 : i = 0 := by omega
      subst hi0
      simp only [List.range_zero, List.foldl_nil]
      rw [getD_set_self _ _ _ _ (by simp [Nat.pos_pow_of_pos m]), bitRev_zero]
  | succ u IH =>
      obtain ⟨IHlen, IHget⟩ := IH (by omega)
      have hpow : (2 : ℕ) ^ (u + 1) ≤ 2 ^ m := Nat.pow_le_pow_right (by norm_num) hu
      have := piDoubleStep_correct _ u (2 ^ m) IHlen hpow IHget
      rw [List.range_succ, List.foldl_append]
      simpa using this

/-! ### The compression phase turns the raw table into a swap list -/

theorem chaseAux_stop (c : List ℕ) (i ind fuel : ℕ) (h : ¬ ind < i) :
    chaseAux c i ind (fuel + 1) = ind := by
  simp [chaseAux, h]

theorem chaseAux_step (c : List ℕ) (i ind fuel : ℕ) (h : ind < i) :
    chaseAux c i ind (fuel + 1) = chaseAux c i (c.getD ind 0) fuel := by
  simp [chaseAux, h]

theorem compression_invariant (m : ℕ) (idx : List ℕ)
    (hlen : idx.length = 2 ^ m)
    (hidx : ∀ i, i < 2 ^ m → idx.getD i 0 = bitRev m i)
    (t : ℕ) (ht : t ≤ 2 ^ m - 2) :
    ((List.range' 1 t).foldl (fun ind i =>
        ind.set i (chaseAux ind i (ind.getD i 0) (2 ^ m))) idx).length = 2 ^ m ∧
    ∀ p, p < 2 ^ m → ((List.range' 1 t).foldl (fun ind i =>
        ind.set i (chaseAux ind i (ind.getD i 0) (2 ^ m))) idx).getD p 0 =
      if 1 ≤ p ∧ p ≤ t then (if p ≤ bitRev m p then bitRev m p else p)
      else bitRev m p := by
  induction t with
  | zero =>
      refine ⟨hlen, fun p hp => ?_⟩
      rw [show List.range' 1 0 = ([] : List ℕ) from rfl, List.foldl_nil,
        if_neg (by omega), hidx p hp]
  | succ t IH =>
      obtain ⟨IHlen, IHget⟩ := IH (by omega)
      set c := (List.range' 1 t).foldl (fun ind i =>
        ind.set i (chaseAux ind i (ind.getD i 0) (2 ^ m))) idx with hc
      have hiN : t + 1 < 2 ^ m := by omega
      have hpeel : (List.range' 1 (t + 1)).foldl (fun ind i =>
          ind.set i (chaseAux ind i (ind.getD i 0) (2 ^ m))) idx =
          c.set (t + 1) (chaseAux c (t + 1) (c.getD (t + 1) 0) (2 ^ m)) := by
        rw [List.range'_1_concat, List.foldl_append, ← hc]
        simp [Nat.add_comm 1 t]
      have hread : c.getD (t + 1) 0 = bitRev m (t + 1) := by
        rw [IHget (t + 1) hiN, if_neg (by omega)]
      have hchase : chaseAux c (t + 1) (c.getD (t + 1) 0) (2 ^ m) =
          if t + 1 ≤ bitRev m (t + 1) then bitRev m (t + 1) else (t + 1) := by
        rw [hread]
        by_cases hcase : t + 1 ≤ bitRev m (t + 1)
        · rw [if_pos hcase]
          obtain ⟨f, hf⟩ : ∃ f, (2 : ℕ) ^ m = f + 1 := ⟨2 ^ m - 1, by omega⟩
          rw [hf, chaseAux_stop _ _ _ _ (by omega)]
        · rw [if_neg hcase]
          have hq1 : 1 ≤ bitRev m (t + 1) := by
            rcases Nat.eq_zero_or_pos (bitRev m (t + 1)) with h0 | h1
            · exfalso
              have := (bitRev_eq_zero_iff m (t + 1) hiN).mp h0
              omega
            · exact h1
          have hqt : bitRev m (t + 1) ≤ t := by omega
          have hcq : c.getD (bitRev m (t + 1)) 0 = t + 1 := by
            have hrevq : bitRev m (bitRev m (t + 1)) = t + 1 :=
              bitRev_bitRev m (t + 1) hiN
            rw [IHget (bitRev m (t + 1)) (by omega), if_pos ⟨hq1, hqt⟩,
              if_pos (by rw [hrevq]; omega), hrevq]
          obtain ⟨f, hf⟩ : ∃ f, (2 : ℕ) ^ m = f + 2 := ⟨2 ^ m - 2, by omega⟩
          rw [hf, chaseAux_step _ _ _ _ (by omega), hcq,
            chaseAux_stop _ _ _ _ (by omega)]
      refine ⟨by rw [hpeel]; simp [IHlen], fun p hp => ?_⟩
      rw [hpeel]
      by_cases hpi : p = t + 1
      · subst hpi
        rw [getD_set_self _ _ _ _ (by rw [IHlen]; exact hiN), hchase,
          if_pos (show 1 ≤ t + 1 ∧ t + 1 ≤ t + 1 by omega)]
      · rw [getD_set_ne _ _ _ _ _ (Ne.symm hpi), IHget p hp]
        by_cases hcond : 1 ≤ p ∧ p ≤ t
        · rw [if_pos hcond, if_pos (show 1 ≤ p ∧ p ≤ t + 1 by omega)]
        · rw [if_neg hcond, if_neg (show ¬ (1 ≤ p ∧ p ≤ t + 1) by omega)]

/-- The compressed permutation table in closed form: entry `p` is the
bit reversal of `p` when that does not point backwards, and `p` itself
(a self-swap, i.e. a no-op) otherwise. -/
theorem permutationIndex_spec (m : ℕ) :
    (permutationIndex (2 ^ m)).length = 2 ^ m ∧
    ∀ p, p < 2 ^ m → (permutationIndex (2 ^ m)).getD p 0 =
      if p ≤ bitRev m p then bitRev m p else p := by
  obtain ⟨hdl, hdg⟩ := piDouble_phase m m le_rfl
  simp only [permutationIndex, pow2Stages_pow]
  obtain ⟨hcl, hcg⟩ := compression_invariant m _ hdl hdg (2 ^ m - 2) le_rfl
  refine ⟨hcl, fun p hp => ?_⟩
  rw [hcg p hp]
  by_cases hc : 1 ≤ p ∧ p ≤ 2 ^ m - 2
  · rw [if_pos hc]
  · rw [if_neg hc]
    have hp01 : p = 0 ∨ p = 2 ^ m - 1 := by omega
    rcases hp01 with h0 | hl
    · subst h0
      rw [bitRev_zero, if_pos le_rfl]
    · subst hl
      rw [bitRev_last, if_pos le_rfl]

/-! ### Applying the swap list realizes the bit-reversal permutation -/

theorem listSwap_self_getD (y : List K) (i p : ℕ) (hi : i < y.length) :
    (listSwap y i i).getD p 0 = y.getD p 0 := by
  by_cases hp : p = i
  · subst hp
    exact listSwap_getD_right y p p hi
  · exact listSwap_getD_other y i i p hp hp

theorem permute_invariant (m : ℕ) (x : List K) (hx : x.length = 2 ^ m)
    (t : ℕ) (ht : t ≤ 2 ^ m - 2) :
    ((List.range' 1 t).foldl (fun y i =>
        listSwap y i ((permutationIndex (2 ^ m)).getD i 0)) x).length = 2 ^ m ∧
    ∀ p, p < 2 ^ m → ((List.range' 1 t).foldl (fun y i =>
        listSwap y i ((permutationIndex (2 ^ m)).getD i 0)) x).getD p 0 =
      if min p (bitRev m p) ≤ t then x.getD (bitRev m p) 0 else x.getD p 0 := by
  induction t with
  | zero =>
      refine ⟨hx, fun p hp => ?_⟩
      rw [show List.range' 1 0 = ([] : List ℕ) from rfl, List.foldl_nil]
      by_cases hc : min p (bitRev m p) ≤ 0
      · rw [if_pos hc]
        have hmin : min p (bitRev m p) = 0 := by omega
        have hp0 : p = 0 := by
          rcases Nat.min_eq_zero_iff.mp hmin with h | h
          · exact h
          · exact (bitRev_eq_zero_iff m p hp).mp h
        subst hp0
        rw [bitRev_zero]
      · rw [if_neg hc]
  | succ t IH =>
      obtain ⟨IHlen, IHget⟩ := IH (by omega)
      set c := (List.range' 1 t).foldl (fun y i =>
        listSwap y i ((permutationIndex (2 ^ m)).getD i 0)) x with hc
      have hiN : t + 1 < 2 ^ m := by omega
      have hrN : bitRev m (t + 1) < 2 ^ m := bitRev_lt m (t + 1)
      have hinv : bitRev m (bitRev m (t + 1)) = t + 1 := bitRev_bitRev m (t + 1) hiN
      have hperm : (permutationIndex (2 ^ m)).getD (t + 1) 0 =
          if t + 1 ≤ bitRev m (t + 1) then bitRev m (t + 1) else t + 1 :=
        (permutationIndex_spec m).2 (t + 1) hiN
      have hpeel : (List.range' 1 (t + 1)).foldl (fun y i =>
          listSwap y i ((permutationIndex (2 ^ m)).getD i 0)) x =
          listSwap c (t + 1) ((permutationIndex (2 ^ m)).getD (t + 1) 0) := by
        rw [List.range'_1_concat, List.foldl_append, ← hc]
        simp [Nat.add_comm 1 t]
      have hlen1 : (listSwap c (t + 1)
          ((permutationIndex (2 ^ m)).getD (t + 1) 0)).length = 2 ^ m := by
        rw [length_listSwap, IHlen]
      refine ⟨by rw [hpeel]; exact hlen1, fun p hp => ?_⟩
      rw [hpeel]
      rcases Nat.lt_trichotomy (t + 1) (bitRev m (t + 1)) with hlt | heq | hgt
      · -- genuine exchange at (t+1, bitRev (t+1))
        rw [hperm, if_pos (by omega)]
        by_cases hpi : p = t + 1
        · subst hpi
          rw [listSwap_getD_left c _ _ (by rw [IHlen]; omega) (by rw [IHlen]; omega),
            IHget _ hrN, hinv, if_neg (by omega), if_pos (by omega)]
        · by_cases hpj : p = bitRev m (t + 1)
          · subst hpj
            rw [listSwap_getD_right c _ _ (by rw [IHlen]; omega), IHget _ hiN,
              if_neg (by omega), if_pos (by rw [hinv]; omega), hinv]
          · rw [listSwap_getD_other c _ _ _ hpi hpj, IHget p hp]
            have hne1 : min p (bitRev m p) ≠ t + 1 := by
              intro hmin
              rcases le_total p (bitRev m p) with h | h
              · rw [min_eq_left h] at hmin
                exact hpi hmin
              · rw [min_eq_right h] at hmin
                apply hpj
                have h2 := congrArg (bitRev m) hmin
                rwa [bitRev_bitRev m p hp] at h2
            have hiff : (min p (bitRev m p) ≤ t) ↔ (min p (bitRev m p) ≤ t + 1) := by
              omega
            rw [if_congr hiff rfl rfl]
      · -- i is its own reversal: the table stores i, the swap is a no-op
        have hrev_eq : bitRev m (t + 1) = t + 1 := heq.symm
        rw [hperm, if_pos (by omega), hrev_eq,
          listSwap_self_getD c (t + 1) p (by rw [IHlen]; exact hiN)]
        by_cases hpi : p = t + 1
        · subst hpi
          rw [IHget _ hiN, if_neg (by rw [hrev_eq]; omega),
            if_pos (by rw [hrev_eq]; omega), hrev_eq]
        · rw [IHget p hp]
          have hne1 : min p (bitRev m p) ≠ t + 1 := by
            intro hmin
            rcases le_total p (bitRev m p) with h | h
            · rw [min_eq_left h] at hmin
              exact hpi hmin
            · rw [min_eq_right h] at hmin
              apply hpi
              have h2 := congrArg (bitRev m) hmin
              rw [bitRev_bitRev m p hp, hrev_eq] at h2
              exact h2
          have hiff : (min p (bitRev m p) ≤ t) ↔ (min p (bitRev m p) ≤ t + 1) := by
            omega
          rw [if_congr hiff rfl rfl]
      · -- the pair was already exchanged at the smaller index: no-op
        rw [hperm, if_neg (by omega),
          listSwap_self_getD c (t + 1) p (by rw [IHlen]; exact hiN)]
        rw [IHget p hp]
        have hne1 : min p (bitRev m p) ≠ t + 1 := by
          intro hmin
          rcases le_total p (bitRev m p) with h | h
          · rw [min_eq_left h] at hmin
            rw [hmin] at h
            omega
          · rw [min_eq_right h] at hmin
            have h2 := congrArg (bitRev m) hmin
            rw [bitRev_bitRev m p hp] at h2
            rw [hmin, h2] at h
            omega
        have hiff : (min p (bitRev m p) ≤ t) ↔ (min p (bitRev m p) ≤ t + 1) := by
          omega
        rw [if_congr hiff rfl rfl]

theorem permute_bitrev (m : ℕ) (x : List K) (hx : x.length = 2 ^ m) :
    (permute x (permutationIndex (2 ^ m)) (2 ^ m)).length = 2 ^ m ∧
    ∀ p, p < 2 ^ m → (permute x (permutationIndex (2 ^ m)) (2 ^ m)).getD p 0 =
      x.getD (bitRev m p) 0 := by
  obtain ⟨hl, hg⟩ := permute_invariant m x hx (2 ^ m - 2) le_rfl
  rw [permute]
  refine ⟨hl, fun p hp => ?_⟩
  rw [hg p hp]
  by_cases hc : min p (bitRev m p) ≤ 2 ^ m - 2
  · rw [if_pos hc]
  · rw [if_neg hc]
    have hrev : bitRev m p < 2 ^ m := bitRev_lt m p
    have hp1 : p = 2 ^ m - 1 := by omega
    have hr1 : bitRev m p = 2 ^ m - 1 := by omega
    rw [hr1, ← hp1]

/-! ### Claim C1: the permutation table as a bit-reversal swap list -/

/-- Claim C1: for every power-of-two `N = 2^m` and every buffer of
length `N`, applying the exchanges `x[i] <-> x[perm[i]]` for
`i = 1 .. N-2` in ascending order yields exactly the bit-reversed
reordering (position `p` receives the entry at the `m`-bit reversal of
`p`), and the table swaps each relevant pair exactly once: every
interior entry either points forward to the strictly larger bit
reversal of its index (the one genuine exchange of that pair) or is the
identity (a no-op self-swap). -/
theorem C1_permutation_realizes_bitrev (N m : ℕ) (hN : N = 2 ^ m)
    (x : List K) (hx : x.length = N) :
    (permute x (permutationIndex N) N).length = N ∧
    (∀ p, p < N → (permute x (permutationIndex N) N).getD p 0 =
      x.getD (bitRev m p) 0) ∧
    (∀ i, 1 ≤ i → i ≤ N - 2 →
      ((permutationIndex N).getD i 0 = bitRev m i ∧ i < bitRev m i) ∨
        (permutationIndex N).getD i 0 = i) := by
  subst hN
  obtain ⟨hl, hg⟩ := permute_bitrev m x hx
  refine ⟨hl, hg, fun i h1 h2 => ?_⟩
  have hiN : i < 2 ^ m := by omega
  rw [(permutationIndex_spec m).2 i hiN]
  by_cases hc : i ≤ bitRev m i
  · by_cases heq : i = bitRev m i
    · right
      rw [if_pos hc, ← heq]
    · left
      exact ⟨if_pos hc, by omega⟩
  · right
    rw [if_neg hc]

/-- Witness for C1 at `N = 8` over ℚ with the buffer `[0,...,7]`. -/
theorem C1_permutation_realizes_bitrev_witness :
    (permute ([0, 1, 2, 3, 4, 5, 6, 7] : List ℚ) (permutationIndex 8) 8).length = 8 ∧
    (∀ p, p < 8 → (permute ([0, 1, 2, 3, 4, 5, 6, 7] : List ℚ)
      (permutationIndex 8) 8).getD p 0 =
      ([0, 1, 2, 3, 4, 5, 6, 7] : List ℚ).getD (bitRev 3 p) 0) ∧
    (∀ i, 1 ≤ i → i ≤ 8 - 2 →
      ((permutationIndex 8).getD i 0 = bitRev 3 i ∧ i < bitRev 3 i) ∨
        (permutationIndex 8).getD i 0 = i) :=
  C1_permutation_realizes_bitrev 8 3 (by norm_num)
    ([0, 1, 2, 3, 4, 5, 6, 7] : List ℚ) (by simp)

/-! ### Roots of unity and the discrete Fourier transform

The mathematical yardstick for claim C4: `wC N` is the principal `N`-th
root used by `roots`, and `DFTP` is the textbook DFT of an index
function. -/

noncomputable def wC (N : ℕ) : ℂ :=
  Complex.exp (-(2 * (Real.pi : ℂ) * Complex.I) / N)

noncomputable def DFTP (N : ℕ) (f : ℕ → ℂ) (k : ℕ) : ℂ :=
  ∑ n ∈ Finset.range N, f n * wC N ^ (k * n)

theorem wC_ne_zero (N : ℕ) : wC N ≠ 0 := Complex.exp_ne_zero _

theorem wC_pow_self (N : ℕ) (hN : 0 < N) : wC N ^ N = 1 := by
  rw [wC, ← Complex.exp_nat_mul]
  have hne : (N : ℂ) ≠ 0 := Nat.cast_ne_zero.mpr hN.ne'
  have harg : (N : ℂ) * (-(2 * (Real.pi : ℂ) * Complex.I) / N) =
      -(2 * (Real.pi : ℂ) * Complex.I) := by
    field_simp
    ring
  rw [harg, Complex.exp_neg, Complex.exp_two_pi_mul_I, inv_one]

theorem wC_sq (L : ℕ) (hL : 0 < L) : wC (2 * L) ^ 2 = wC L := by
  rw [wC, wC, ← Complex.exp_nat_mul]
  congr 1
  have hne : (L : ℂ) ≠ 0 := Nat.cast_ne_zero.mpr hL.ne'
  push_cast
  field_simp
  ring

theorem wC_pow_half (L : ℕ) (hL : 0 < L) : wC (2 * L) ^ L = -1 := by
  rw [wC, ← Complex.exp_nat_mul]
  have hne : (L : ℂ) ≠ 0 := Nat.cast_ne_zero.mpr hL.ne'
  have harg : (L : ℂ) * (-(2 * (Real.pi : ℂ) * Complex.I) / ((2 * L : ℕ) : ℂ)) =
      -((Real.pi : ℂ) * Complex.I) := by
    push_cast
    field_simp
    ring
  rw [harg, Complex.exp_neg, Complex.exp_pi_mul_I]
  norm_num

theorem wC_isPrimitiveRoot (N : ℕ) (hN : 0 < N) :
    IsPrimitiveRoot (wC N) N := by
  have h := Complex.isPrimitiveRoot_exp N hN.ne'
  have heq : wC N = (Complex.exp (2 * (Real.pi : ℂ) * Complex.I / N))⁻¹ := by
    rw [wC, ← Complex.exp_neg, neg_div]
  rw [heq]
  exact h.inv

theorem sum_range_two_mul (L : ℕ) (F : ℕ → ℂ) :
    ∑ n ∈ Finset.range (2 * L), F n =
    (∑ j ∈ Finset.range L, F (2 * j)) + ∑ j ∈ Finset.range L, F (2 * j + 1) := by
  induction L with
  | zero => simp
  | succ L IH =>
      have h2 : 2 * (L + 1) = 2 * L + 1 + 1 := by ring
      rw [h2, Finset.sum_range_succ, Finset.sum_range_succ,
        Finset.sum_range_succ, Finset.sum_range_succ, IH]
      have h3 : 2 * L + 1 = 2 * L + 1 := rfl
      ring

theorem DFTP_split_low (L : ℕ) (hL : 0 < L) (f : ℕ → ℂ) (k : ℕ) :
    DFTP (2 * L) f k =
      DFTP L (fun j => f (2 * j)) k +
        wC (2 * L) ^ k * DFTP L (fun j => f (2 * j + 1)) k := by
  rw [DFTP, sum_range_two_mul, DFTP, DFTP, Finset.mul_sum]
  congr 1
  · apply Finset.sum_congr rfl
    intro j _
    congr 1
    rw [show k * (2 * j) = 2 * (k * j) by ring, pow_mul, wC_sq L hL]
  · apply Finset.sum_congr rfl
    intro j _
    rw [show k * (2 * j + 1) = 2 * (k * j) + k by ring, pow_add, pow_mul,
      wC_sq L hL]
    ring

theorem DFTP_periodic (L : ℕ) (hL : 0 < L) (f : ℕ → ℂ) (k : ℕ) :
    DFTP L f (L + k) = DFTP L f k := by
  rw [DFTP, DFTP]
  apply Finset.sum_congr rfl
  intro n _
  congr 1
  rw [show (L + k) * n = L * n + k * n by ring, pow_add, pow_mul,
    wC_pow_self L hL, one_pow, one_mul]

theorem DFTP_split_high (L : ℕ) (hL : 0 < L) (f : ℕ → ℂ) (k : ℕ) :
    DFTP (2 * L) f (L + k) =
      DFTP L (fun j => f (2 * j)) k -
        wC (2 * L) ^ k * DFTP L (fun j => f (2 * j + 1)) k := by
  rw [DFTP_split_low L hL f (L + k), DFTP_periodic L hL, DFTP_periodic L hL,
    pow_add, wC_pow_half L hL]
  ring

theorem DFTP_congr (N : ℕ) (f g : ℕ → ℂ) (h : ∀ n, n < N → f n = g n)
    (k : ℕ) : DFTP N f k = DFTP N g k := by
  rw [DFTP, DFTP]
  apply Finset.sum_congr rfl
  intro n hn
  rw [h n (Finset.mem_range.mp hn)]

/-! ### The butterfly stage as a pointwise map -/

/-- One butterfly stage, pointwise: within each `2n`-block, position `k`
of the first half becomes `f(k) + W k * f(k+n)` and position `k` of the
second half becomes `f(k) - W k * f(k+n)` (the two writes of the
in-place butterfly `x[i], x[i+n] = x[i]+f, x[i]-f`). -/
def stagePW (W : ℕ → K) (n : ℕ) (f : ℕ → K) : ℕ → K := fun p =>
  if p % (2 * n) < n then f p + W (p % (2 * n)) * f (p + n)
  else f (p - n) - W (p % (2 * n) - n) * f p

/-- The full stage pipeline at the function level: stages
`t = 0, 1, ..., j-1` in order, stage `t` using half-block `2^t` and the
principal `2^(t+1)`-th root. -/
noncomputable def stagesP : ℕ → (ℕ → ℂ) → ℕ → ℂ
  | 0, f => f
  | j + 1, f => stagePW (fun k => wC (2 ^ (j + 1)) ^ k) (2 ^ j) (stagesP j f)

theorem stagePW_shift (W : ℕ → K) (n L : ℕ) (hL : 2 * n ∣ L)
    (f : ℕ → K) (p : ℕ) :
    stagePW W n f (L + p) = stagePW W n (fun q => f (L + q)) p := by
  have hmod : (L + p) % (2 * n) = p % (2 * n) := by
    obtain ⟨c, hc⟩ := hL
    subst hc
    rw [Nat.mul_add_mod]
  simp only [stagePW, hmod]
  by_cases hb : p % (2 * n) < n
  · rw [if_pos hb, Nat.add_assoc, if_pos hb]
  · rw [if_neg hb]
    have hpn : n ≤ p := by
      have h1 : n ≤ p % (2 * n) := le_of_not_lt hb
      have h2 : p % (2 * n) ≤ p := Nat.mod_le p (2 * n)
      omega
    have h1 : L + p - n = L + (p - n) := by omega
    rw [h1, if_neg hb]

theorem stagesP_shift (j L : ℕ) (hL : 2 ^ j ∣ L) (f : ℕ → ℂ) (p : ℕ) :
    stagesP j f (L + p) = stagesP j (fun q => f (L + q)) p := by
  induction j generalizing f p with
  | zero => rfl
  | succ j IH =>
      have hL2 : 2 * 2 ^ j ∣ L := by
        have : (2 : ℕ) * 2 ^ j = 2 ^ (j + 1) := by rw [pow_succ]; ring
        rw [this]
        exact hL
      have hLj : 2 ^ j ∣ L := dvd_trans (pow_dvd_pow 2 (Nat.le_succ j)) hL
      simp only [stagesP]
      rw [stagePW_shift _ _ _ hL2 _ p]
      have hfun : (fun q => stagesP j f (L + q)) =
          stagesP j (fun q => f (L + q)) := by
        funext q
        exact IH hLj f q
      rw [hfun]

theorem stagesP_congr (j : ℕ) (f g : ℕ → ℂ) (h : ∀ q, q < 2 ^ j → f q = g q) :
    ∀ p, p < 2 ^ j → stagesP j f p = stagesP j g p := by
  induction j generalizing f g with
  | zero =>
      intro p hp
      have hp0 : p = 0 := by omega
      subst hp0
      exact h 0 (by norm_num)
  | succ j IH =>
      intro p hp
      have hpow : (2 : ℕ) ^ (j + 1) = 2 * 2 ^ j := by rw [pow_succ]; ring
      have hmod : p % (2 * 2 ^ j) = p := Nat.mod_eq_of_lt (by rw [← hpow]; exact hp)
      simp only [stagesP, stagePW, hmod]
      have hj : ∀ q, q < 2 ^ j → f q = g q := fun q hq =>
        h q (by rw [hpow]; omega)
      have hjs : ∀ q, q < 2 ^ j → f (2 ^ j + q) = g (2 ^ j + q) := fun q hq =>
        h (2 ^ j + q) (by rw [hpow]; omega)
      by_cases hb : p < 2 ^ j
      · rw [if_pos hb, IH f g hj p hb]
        have h1 : stagesP j f (p + 2 ^ j) = stagesP j g (p + 2 ^ j) := by
          rw [show p + 2 ^ j = 2 ^ j + p by ring, stagesP_shift j (2 ^ j) dvd_rfl,
            stagesP_shift j (2 ^ j) dvd_rfl]
          exact IH _ _ hjs p hb
        rw [h1, if_pos hb]
      · rw [if_neg hb]
        have hk : p - 2 ^ j < 2 ^ j := by omega
        have h1 : stagesP j f (p - 2 ^ j) = stagesP j g (p - 2 ^ j) :=
          IH f g hj _ hk
        have h2 : stagesP j f p = stagesP j g p := by
          rw [show p = 2 ^ j + (p - 2 ^ j) by omega,
            stagesP_shift j (2 ^ j) dvd_rfl, stagesP_shift j (2 ^ j) dvd_rfl]
          exact IH _ _ hjs _ hk
        rw [h1, h2, if_neg hb]

/-- The heart of claim C4: the stage pipeline applied to the bit-reversed
input computes the DFT (the classical decimation-in-time recursion,
proved by induction on the number of stages). -/
theorem stagesP_bitrev_eq_DFTP (m : ℕ) (f : ℕ → ℂ) (p : ℕ) (hp : p < 2 ^ m) :
    stagesP m (fun q => f (bitRev m q)) p = DFTP (2 ^ m) f p := by
  induction m generalizing f p with
  | zero =>
      have hp0 : p = 0 := by omega
      subst hp0
      have h1 : stagesP 0 (fun q => f (bitRev 0 q)) 0 = f 0 := rfl
      rw [h1, DFTP]
      simp
  | succ m IH =>
      have hpos : (0 : ℕ) < 2 ^ m := Nat.pos_pow_of_pos m (by norm_num)
      have hpow : (2 : ℕ) ^ (m + 1) = 2 * 2 ^ m := by rw [pow_succ]; ring
      have hmod : p % (2 * 2 ^ m) = p := Nat.mod_eq_of_lt (by rw [← hpow]; exact hp)
      simp only [stagesP, stagePW, hmod]
      have hSlow : ∀ k, k < 2 ^ m →
          stagesP m (fun q => f (bitRev (m + 1) q)) k =
            DFTP (2 ^ m) (fun j => f (2 * j)) k := by
        intro k hk
        have hcong := stagesP_congr m (fun q => f (bitRev (m + 1) q))
          (fun q => f (2 * bitRev m q))
          (fun q hq => by
            show f (bitRev (m + 1) q) = f (2 * bitRev m q)
            rw [bitRev_low m q hq]) k hk
        rw [hcong]
        exact IH (fun j => f (2 * j)) k hk
      have hShigh : ∀ k, k < 2 ^ m →
          stagesP m (fun q => f (bitRev (m + 1) q)) (2 ^ m + k) =
            DFTP (2 ^ m) (fun j => f (2 * j + 1)) k := by
        intro k hk
        rw [stagesP_shift m (2 ^ m) dvd_rfl]
        have hcong := stagesP_congr m (fun q => f (bitRev (m + 1) (2 ^ m + q)))
          (fun q => f (2 * bitRev m q + 1))
          (fun q hq => by
            show f (bitRev (m + 1) (2 ^ m + q)) = f (2 * bitRev m q + 1)
            rw [show 2 ^ m + q = q + 2 ^ m by ring, bitRev_high m q hq]) k hk
        rw [hcong]
        exact IH (fun j => f (2 * j + 1)) k hk
      by_cases hb : p < 2 ^ m
      · rw [if_pos hb, hSlow p hb,
          show p + 2 ^ m = 2 ^ m + p by ring, hShigh p hb,
          hpow, DFTP_split_low (2 ^ m) hpos f p]
      · rw [if_neg hb]
        have hk : p - 2 ^ m < 2 ^ m := by omega
        rw [show stagesP m (fun q => f (bitRev (m + 1) q)) p =
            stagesP m (fun q => f (bitRev (m + 1) q)) (2 ^ m + (p - 2 ^ m)) from by
          rw [show 2 ^ m + (p - 2 ^ m) = p by omega]]
        rw [hSlow (p - 2 ^ m) hk, hShigh (p - 2 ^ m) hk,
          show p = 2 ^ m + (p - 2 ^ m) by omega, hpow,
          DFTP_split_high (2 ^ m) hpos f (p - 2 ^ m)]
        rw [show 2 ^ m + (p - 2 ^ m) - 2 ^ m = p - 2 ^ m by omega]

/-! ### Extracting the imperative stage loop to the pointwise stage -/

theorem fftStage_inner_invariant (x F : List K) (s n o N : ℕ)
    (hx : x.length = N) (hno : o + 2 * n ≤ N) (r : ℕ) (hr : r ≤ n) :
    ((List.range r).foldl (fun z k =>
        butterflyAt z F (k * s) (k + o) (k + o + n)) x).length = N ∧
    ∀ p, p < N → ((List.range r).foldl (fun z k =>
        butterflyAt z F (k * s) (k + o) (k + o + n)) x).getD p 0 =
      if o ≤ p ∧ p < o + r then
        x.getD p 0 + F.getD ((p - o) * s) 0 * x.getD (p + n) 0
      else if o + n ≤ p ∧ p < o + n + r then
        x.getD (p - n) 0 - F.getD ((p - o - n) * s) 0 * x.getD p 0
      else x.getD p 0 := by
  induction r with
  | zero =>
      refine ⟨by simpa using hx, fun p hp => ?_⟩
      rw [List.range_zero, List.foldl_nil, if_neg (by omega), if_neg (by omega)]
  | succ r IH =>
      obtain ⟨IHlen, IHget⟩ := IH (by omega)
      set z := (List.range r).foldl (fun z k =>
        butterflyAt z F (k * s) (k + o) (k + o + n)) x with hz
      have hrn : r < n := by omega
      have haN : r + o < N := by omega
      have hbN : r + o + n < N := by omega
      have hpeel : (List.range (r + 1)).foldl (fun z k =>
          butterflyAt z F (k * s) (k + o) (k + o + n)) x =
          butterflyAt z F (r * s) (r + o) (r + o + n) := by
        rw [List.range_succ, List.foldl_append, ← hz]
        simp
      have hza : z.getD (r + o) 0 = x.getD (r + o) 0 := by
        rw [IHget _ haN, if_neg (by omega), if_neg (by omega)]
      have hzb : z.getD (r + o + n) 0 = x.getD (r + o + n) 0 := by
        rw [IHget _ hbN, if_neg (by omega), if_neg (by omega)]
      refine ⟨by rw [hpeel, length_butterflyAt, IHlen], fun p hp => ?_⟩
      rw [hpeel, butterflyAt]
      by_cases hpa : p = r + o
      · subst hpa
        rw [getD_set_ne _ _ _ _ _ (by omega),
          getD_set_self _ _ _ _ (by rw [IHlen]; omega), hza, hzb]
        rw [if_pos (by omega : o ≤ r + o ∧ r + o < o + (r + 1)),
          show r + o - o = r by omega, show r + o + n = r + o + n from rfl]
      · by_cases hpb : p = r + o + n
        · subst hpb
          rw [getD_set_self _ _ _ _ (by simp [IHlen]; omega), hza, hzb]
          rw [if_neg (by omega), if_pos (by omega : o + n ≤ r + o + n ∧
            r + o + n < o + n + (r + 1)),
            show r + o + n - n = r + o by omega,
            show r + o + n - o - n = r by omega]
        · rw [getD_set_ne _ _ _ _ _ (by omega), getD_set_ne _ _ _ _ _ (by omega),
            IHget p hp]
          have h1 : (o ≤ p ∧ p < o + r) ↔ (o ≤ p ∧ p < o + (r + 1)) := by omega
          have h2 : (o + n ≤ p ∧ p < o + n + r) ↔
              (o + n ≤ p ∧ p < o + n + (r + 1)) := by omega
          rw [if_congr h1 rfl (if_congr h2 rfl rfl)]

theorem ceil_div_of_dvd (N d : ℕ) (hd : 0 < d) (hdvd : d ∣ N) :
    (N + (d - 1)) / d = N / d := by
  obtain ⟨q, hq⟩ := hdvd
  subst hq
  rw [Nat.mul_div_cancel_left q hd, Nat.mul_add_div hd]
  have h1 : (d - 1) / d = 0 := Nat.div_eq_of_lt (by omega)
  omega

theorem fftStage_extract (x F : List K) (N s n : ℕ) (hx : x.length = N)
    (hn : 0 < n) (hdvd : 2 * n ∣ N) :
    (fftStage x F N s n).length = N ∧
    ∀ p, p < N → (fftStage x F N s n).getD p 0 =
      stagePW (fun k => F.getD (k * s) 0) n (fun q => x.getD q 0) p := by
  have h2n : 0 < 2 * n := by omega
  have hcount : (N + (2 * n - 1)) / (2 * n) = N / (2 * n) :=
    ceil_div_of_dvd N (2 * n) h2n hdvd
  suffices h : ∀ G, G ≤ N / (2 * n) →
      ((List.range G).foldl (fun y g =>
        (List.range n).foldl (fun z k =>
          butterflyAt z F (k * s) (k + 2 * n * g) (k + 2 * n * g + n)) y) x).length = N ∧
      ∀ p, p < N → ((List.range G).foldl (fun y g =>
        (List.range n).foldl (fun z k =>
          butterflyAt z F (k * s) (k + 2 * n * g) (k + 2 * n * g + n)) y) x).getD p 0 =
        if p < 2 * n * G then stagePW (fun k => F.getD (k * s) 0) n
          (fun q => x.getD q 0) p
        else x.getD p 0 by
    obtain ⟨hl, hg⟩ := h (N / (2 * n)) le_rfl
    rw [fftStage, hcount]
    refine ⟨hl, fun p hp => ?_⟩
    rw [hg p hp, if_pos (by rw [Nat.mul_div_cancel' hdvd]; exact hp)]
  intro G hG
  induction G with
  | zero =>
      refine ⟨hx, fun p hp => ?_⟩
      rw [List.range_zero, List.foldl_nil, if_neg (by omega)]
  | succ G IH =>
      obtain ⟨IHlen, IHget⟩ := IH (by omega)
      set y := (List.range G).foldl (fun y g =>
        (List.range n).foldl (fun z k =>
          butterflyAt z F (k * s) (k + 2 * n * g) (k + 2 * n * g + n)) y) x with hy
      have hoN : 2 * n * G + 2 * n ≤ N := by
        have h2 : (G + 1) * (2 * n) ≤ N := (Nat.le_div_iff_mul_le h2n).mp hG
        have h3 : (G + 1) * (2 * n) = 2 * n * G + 2 * n := by ring
        omega
      have hpeel : (List.range (G + 1)).foldl (fun y g =>
          (List.range n).foldl (fun z k =>
            butterflyAt z F (k * s) (k + 2 * n * g) (k + 2 * n * g + n)) y) x =
          (List.range n).foldl (fun z k =>
            butterflyAt z F (k * s) (k + 2 * n * G) (k + 2 * n * G + n)) y := by
        rw [List.range_succ, List.foldl_append, ← hy]
        simp
      obtain ⟨hil, hig⟩ := fftStage_inner_invariant y F s n (2 * n * G) N
        IHlen hoN n le_rfl
      refine ⟨by rw [hpeel]; exact hil, fun p hp => ?_⟩
      rw [hpeel, hig p hp]
      have hexp : 2 * n * (G + 1) = 2 * n * G + 2 * n := by ring
      rw [hexp]
      have hyun : ∀ q, 2 * n * G ≤ q → q < N → y.getD q 0 = x.getD q 0 := by
        intro q h1 h2
        rw [IHget q h2, if_neg (by omega)]
      by_cases hcA : p < 2 * n * G
      · rw [if_neg (by omega), if_neg (by omega), IHget p hp, if_pos hcA,
          if_pos (by omega)]
      · by_cases hcB : p < 2 * n * G + n
        · -- first half of the current block
          have hmod : p % (2 * n) = p - 2 * n * G := by
            conv_lhs => rw [show p = 2 * n * G + (p - 2 * n * G) by omega]
            rw [Nat.mul_add_mod]
            exact Nat.mod_eq_of_lt (by omega)
          rw [if_pos (by omega), hyun p (by omega) hp,
            hyun (p + n) (by omega) (by omega), if_pos (by omega)]
          show x.getD p 0 + F.getD ((p - 2 * n * G) * s) 0 * x.getD (p + n) 0 =
            stagePW (fun k => F.getD (k * s) 0) n (fun q => x.getD q 0) p
          rw [stagePW]
          simp only [hmod]
          rw [if_pos (by omega)]
        · by_cases hcC : p < 2 * n * G + 2 * n
          · -- second half of the current block
            have hmod : p % (2 * n) = p - 2 * n * G := by
              conv_lhs => rw [show p = 2 * n * G + (p - 2 * n * G) by omega]
              rw [Nat.mul_add_mod]
              exact Nat.mod_eq_of_lt (by omega)
            rw [if_neg (by omega), if_pos (by omega),
              hyun (p - n) (by omega) (by omega), hyun p (by omega) hp,
              if_pos (by omega)]
            show x.getD (p - n) 0 - F.getD ((p - 2 * n * G - n) * s) 0 * x.getD p 0 =
              stagePW (fun k => F.getD (k * s) 0) n (fun q => x.getD q 0) p
            rw [stagePW]
            simp only [hmod]
            rw [if_neg (by omega), show p - 2 * n * G - n = p - 2 * n * G - n from rfl]
          · -- beyond the processed prefix
            rw [if_neg (by omega), if_neg (by omega), IHget p hp,
              if_neg (by omega), if_neg (by omega)]

/-! ### Claim C4: the twiddle table, the stage loop, and the full transform -/

/-- Flattening singleton blocks is a plain map (the shape produced by the
elementwise coercion of `List.range` inside `roots`). -/
theorem flatMap_singleton_map {α β : Type} (f : α → β) (l : List α) :
    (l.flatMap fun a => [f a]) = l.map f := by
  induction l with
  | nil => rfl
  | cons a l IH => simp [List.flatMap_cons, IH]

/-- The twiddle factors read by stage `t` of the butterfly loop: entry
`k * (N >>> (t+1))` of `roots (2^m)` is the `k`-th power of the principal
`2^(t+1)`-th root of unity. -/
theorem roots_getD (m t k : ℕ) (ht : t < m) (hk : k < 2 ^ t) :
    (roots (2 ^ m)).getD (k * 2 ^ (m - t - 1)) 0 = wC (2 ^ (t + 1)) ^ k := by
  have hpos : (0:ℕ) < 2 ^ (m - t - 1) := Nat.pos_pow_of_pos _ (by norm_num)
  have hidx : k * 2 ^ (m - t - 1) < 2 ^ m / 2 := by
    have h1 : k * 2 ^ (m - t - 1) < 2 ^ t * 2 ^ (m - t - 1) :=
      (Nat.mul_lt_mul_right hpos).mpr hk
    have h2 : 2 ^ t * 2 ^ (m - t - 1) = 2 ^ (m - 1) := by
      rw [← pow_add]
      congr 1
      omega
    have h3 : 2 ^ m / 2 = 2 ^ (m - 1) :=
      Nat.div_eq_of_eq_mul_left (by norm_num)
        (by rw [← pow_succ]; congr 1; omega)
    omega
  have hco : (do let a ← List.range (2 ^ m / 2); pure ((a : ℕ) : ℂ)) =
      (List.range (2 ^ m / 2)).map (fun a : ℕ => ((a : ℕ) : ℂ)) := by
    simp [flatMap_singleton_map]
  rw [roots, hco, List.map_map, getD_map_range _ _ _ _ hidx]
  simp only [Function.comp_apply]
  rw [wC, ← Complex.exp_nat_mul]
  congr 1
  have hC : ((2:ℂ)) ^ m = 2 ^ (m - t - 1) * 2 ^ (t + 1) := by
    rw [← pow_add]
    congr 1
    omega
  have hne1 : ((2:ℂ) ^ (t + 1)) ≠ 0 := pow_ne_zero _ (by norm_num)
  have hne2 : ((2:ℂ) ^ (m - t - 1)) ≠ 0 := pow_ne_zero _ (by norm_num)
  push_cast
  rw [hC]
  field_simp
  ring

/-- `stagePW` only reads the twiddle function below `n` and the input below
`N`, so it respects pointwise agreement on those ranges. -/
theorem stagePW_congr (W W' : ℕ → ℂ) (n N : ℕ) (hn : 0 < n) (hdvd : 2 * n ∣ N)
    (f f' : ℕ → ℂ) (hW : ∀ k, k < n → W k = W' k)
    (hf : ∀ q, q < N → f q = f' q) (p : ℕ) (hp : p < N) :
    stagePW W n f p = stagePW W' n f' p := by
  have h2n : 0 < 2 * n := by omega
  have hmlt : p % (2 * n) < 2 * n := Nat.mod_lt p h2n
  simp only [stagePW]
  by_cases hb : p % (2 * n) < n
  · have hmd : p % (2 * n) + 2 * n * (p / (2 * n)) = p := Nat.mod_add_div p (2 * n)
    obtain ⟨M, hM⟩ := hdvd
    have hdq : p / (2 * n) < M := by
      apply (Nat.div_lt_iff_lt_mul h2n).mpr
      rw [Nat.mul_comm M (2 * n)]
      omega
    have hmul : 2 * n * (p / (2 * n) + 1) ≤ 2 * n * M :=
      Nat.mul_le_mul_left (2 * n) (by omega)
    have hmul2 : 2 * n * (p / (2 * n) + 1) = 2 * n * (p / (2 * n)) + 2 * n := by
      ring
    have hpn : p + n < N := by omega
    rw [if_pos hb, if_pos hb, hW (p % (2 * n)) hb, hf p hp, hf (p + n) hpn]
  · rw [if_neg hb, if_neg hb, hW (p % (2 * n) - n) (by omega), hf p hp,
      hf (p - n) (by omega)]

/-- The imperative stage loop of `fft` coincides pointwise with the
function-level pipeline `stagesP` on buffers of length `2^m`. -/
theorem fftButterfly_eq (m : ℕ) (x : List ℂ) (hx : x.length = 2 ^ m) :
    (fftButterfly x (2 ^ m) (roots (2 ^ m))).length = 2 ^ m ∧
    ∀ p, p < 2 ^ m → (fftButterfly x (2 ^ m) (roots (2 ^ m))).getD p 0 =
      stagesP m (fun q => x.getD q 0) p := by
  rw [fftButterfly, pow2Stages_pow]
  suffices h : ∀ j, j ≤ m →
      ((List.range j).foldl (fun y t =>
        fftStage y (roots (2 ^ m)) (2 ^ m) (2 ^ m >>> (t + 1)) (2 ^ t)) x).length = 2 ^ m ∧
      ∀ p, p < 2 ^ m →
        ((List.range j).foldl (fun y t =>
          fftStage y (roots (2 ^ m)) (2 ^ m) (2 ^ m >>> (t + 1)) (2 ^ t)) x).getD p 0 =
        stagesP j (fun q => x.getD q 0) p by
    exact h m le_rfl
  intro j
  induction j with
  | zero =>
      intro _
      simp only [List.range_zero, List.foldl_nil]
      exact ⟨hx, fun p _ => rfl⟩
  | succ j IH =>
      intro hj
      obtain ⟨IHlen, IHget⟩ := IH (by omega)
      set y := (List.range j).foldl (fun y t =>
        fftStage y (roots (2 ^ m)) (2 ^ m) (2 ^ m >>> (t + 1)) (2 ^ t)) x with hy
      have hpeel : (List.range (j + 1)).foldl (fun y t =>
          fftStage y (roots (2 ^ m)) (2 ^ m) (2 ^ m >>> (t + 1)) (2 ^ t)) x =
          fftStage y (roots (2 ^ m)) (2 ^ m) (2 ^ m >>> (j + 1)) (2 ^ j) := by
        rw [List.range_succ, List.foldl_append, ← hy]
        simp
      have hdvd : 2 * 2 ^ j ∣ 2 ^ m := by
        rw [show 2 * 2 ^ j = 2 ^ (j + 1) by rw [pow_succ]; ring]
        exact pow_dvd_pow 2 hj
      obtain ⟨hl, hg⟩ := fftStage_extract y (roots (2 ^ m)) (2 ^ m)
        (2 ^ m >>> (j + 1)) (2 ^ j) IHlen (Nat.pos_pow_of_pos j (by norm_num)) hdvd
      have hs : 2 ^ m >>> (j + 1) = 2 ^ (m - j - 1) := by
        rw [Nat.shiftRight_eq_div_pow, Nat.pow_div hj (by norm_num)]
        congr 1
      have hW : ∀ k, k < 2 ^ j →
          (roots (2 ^ m)).getD (k * (2 ^ m >>> (j + 1))) 0 = wC (2 ^ (j + 1)) ^ k := by
        intro k hk
        rw [hs]
        exact roots_getD m j k (by omega) hk
      refine ⟨by rw [hpeel]; exact hl, fun p hp => ?_⟩
      rw [hpeel, hg p hp]
      rw [show stagesP (j + 1) (fun q => x.getD q 0) =
        stagePW (fun k => wC (2 ^ (j + 1)) ^ k) (2 ^ j)
          (stagesP j (fun q => x.getD q 0)) from rfl]
      exact stagePW_congr _ _ (2 ^ j) (2 ^ m)
        (Nat.pos_pow_of_pos j (by norm_num)) hdvd _ _ hW IHget p hp

/-- `fft` on a power-of-two buffer computes the DFT, covering the hard-coded
shortcuts for `N = 1, 2, 4` and the permute-then-butterfly general path. -/
theorem fft_eq_DFTP (m : ℕ) (x : List ℂ) (hx : x.length = 2 ^ m) (p : ℕ)
    (hp : p < 2 ^ m) :
    (fft x (2 ^ m) (roots (2 ^ m)) (permutationIndex (2 ^ m))).getD p 0 =
      DFTP (2 ^ m) (fun q => x.getD q 0) p := by
  rcases Nat.lt_or_ge m 3 with hm | hm
  · interval_cases m
    · -- N = 1
      simp only [pow_zero] at hx hp ⊢
      have hp0 : p = 0 := by omega
      subst hp0
      show x.getD 0 0 = DFTP 1 (fun q => x.getD q 0) 0
      rw [DFTP, Finset.sum_range_one]
      norm_num
    · -- N = 2
      simp only [pow_one] at hx hp ⊢
      have hF0 : (roots 2).getD 0 0 = 1 := by
        have h := roots_getD 1 0 0 (by norm_num) (by norm_num)
        norm_num at h
        exact h
      have hw : wC 2 = -1 := by
        have h2 := wC_pow_half 1 (by norm_num)
        rw [pow_one] at h2
        norm_num at h2
        exact h2
      have hD : ∀ (f : ℕ → ℂ) (k : ℕ), DFTP 2 f k =
          f 0 * wC 2 ^ (k * 0) + f 1 * wC 2 ^ (k * 1) := by
        intro f k
        rw [DFTP, show Finset.range 2 = Finset.range (1 + 1) from rfl,
          Finset.sum_range_succ, Finset.sum_range_one]
      match x, hx with
      | [a, b], _ =>
        interval_cases p
        · show a + (roots 2).getD 0 0 * b = DFTP 2 (fun q => [a, b].getD q 0) 0
          rw [hF0, hD]
          norm_num [List.getD]
        · show a - (roots 2).getD 0 0 * b = DFTP 2 (fun q => [a, b].getD q 0) 1
          rw [hF0, hD]
          norm_num [List.getD]
          rw [hw]
          ring
    · -- N = 4
      simp only [show (2:ℕ) ^ 2 = 4 from by norm_num] at hx hp ⊢
      have hF0 : (roots 4).getD 0 0 = 1 := by
        have h := roots_getD 2 0 0 (by norm_num) (by norm_num)
        norm_num at h
        exact h
      have hF1 : (roots 4).getD 1 0 = wC 4 := by
        have h := roots_getD 2 1 1 (by norm_num) (by norm_num)
        norm_num at h
        exact h
      have hw2 : wC 4 ^ 2 = -1 := by
        have h1 := wC_sq 2 (by norm_num)
        have h2 := wC_pow_half 1 (by norm_num)
        rw [pow_one] at h2
        norm_num at h1 h2
        rw [h1, h2]
      have hw3 : wC 4 ^ 3 = -wC 4 := by
        have h : wC 4 ^ 3 = wC 4 ^ 2 * wC 4 := by
          rw [← pow_succ]
        rw [h, hw2]
        ring
      have hw4 : wC 4 ^ 4 = 1 := by
        have h : wC 4 ^ 4 = wC 4 ^ 2 * wC 4 ^ 2 := by
          rw [← pow_add]
        rw [h, hw2]
        ring
      have hw6 : wC 4 ^ 6 = -1 := by
        have h : wC 4 ^ 6 = wC 4 ^ 4 * wC 4 ^ 2 := by
          rw [← pow_add]
        rw [h, hw4, hw2]
        ring
      have hw9 : wC 4 ^ 9 = wC 4 := by
        have h : wC 4 ^ 9 = wC 4 ^ 4 * (wC 4 ^ 4 * wC 4) := by
          rw [← pow_succ, ← pow_add]
        rw [h, hw4]
        ring
      have hD : ∀ (f : ℕ → ℂ) (k : ℕ), DFTP 4 f k =
          f 0 * wC 4 ^ (k * 0) + f 1 * wC 4 ^ (k * 1) +
          f 2 * wC 4 ^ (k * 2) + f 3 * wC 4 ^ (k * 3) := by
        intro f k
        rw [DFTP, show Finset.range 4 = Finset.range (3 + 1) from rfl,
          Finset.sum_range_succ,
          show Finset.range 3 = Finset.range (2 + 1) from rfl,
          Finset.sum_range_succ,
          show Finset.range 2 = Finset.range (1 + 1) from rfl,
          Finset.sum_range_succ, Finset.sum_range_one]
      match x, hx with
      | [a, b, c, d], _ =>
        interval_cases p
        · show a + (roots 4).getD 0 0 * c + (roots 4).getD 0 0 *
            (b + (roots 4).getD 0 0 * d) = DFTP 4 (fun q => [a, b, c, d].getD q 0) 0
          rw [hF0, hD]
          norm_num [List.getD]
          ring
        · show a - (roots 4).getD 0 0 * c + (roots 4).getD 1 0 *
            (b - (roots 4).getD 0 0 * d) = DFTP 4 (fun q => [a, b, c, d].getD q 0) 1
          rw [hF0, hF1, hD]
          norm_num [List.getD]
          rw [hw2, hw3]
          ring
        · show a + (roots 4).getD 0 0 * c - (roots 4).getD 0 0 *
            (b + (roots 4).getD 0 0 * d) = DFTP 4 (fun q => [a, b, c, d].getD q 0) 2
          rw [hF0, hD]
          norm_num [List.getD]
          rw [hw2, hw4, hw6]
          ring
        · show a - (roots 4).getD 0 0 * c - (roots 4).getD 1 0 *
            (b - (roots 4).getD 0 0 * d) = DFTP 4 (fun q => [a, b, c, d].getD q 0) 3
          rw [hF0, hF1, hD]
          norm_num [List.getD]
          rw [hw3, hw6, hw9]
          ring
  · -- the general path: permute then butterfly
    have h8 : (8:ℕ) ≤ 2 ^ m := by
      calc (8:ℕ) = 2 ^ 3 := by norm_num
        _ ≤ 2 ^ m := Nat.pow_le_pow_right (by norm_num) hm
    rw [fft, if_neg (by omega), if_neg (by omega), if_neg (by omega)]
    obtain ⟨hpl, hpg⟩ := permute_bitrev m x hx
    obtain ⟨hbl, hbg⟩ := fftButterfly_eq m
      (permute x (permutationIndex (2 ^ m)) (2 ^ m)) hpl
    rw [hbg p hp]
    rw [stagesP_congr m
      (fun q => (permute x (permutationIndex (2 ^ m)) (2 ^ m)).getD q 0)
      (fun q => x.getD (bitRev m q) 0) (fun q hq => hpg q hq) p hp]
    exact stagesP_bitrev_eq_DFTP m (fun q => x.getD q 0) p hp

/-- Fourier inversion for `DFTP`: transforming the index-reversed spectrum
returns `N` times the original signal. -/
theorem DFTP_inv (N : ℕ) (hN : 0 < N) (f : ℕ → ℂ) (k : ℕ) (hk : k < N) :
    DFTP N (fun q => DFTP N f ((N - q) % N)) k = (N : ℂ) * f k := by
  have hw : wC N ^ N = 1 := wC_pow_self N hN
  have hprim := wC_isPrimitiveRoot N hN
  have hpow_inner : ∀ t q : ℕ, q < N →
      wC N ^ ((N - q) % N * t) * wC N ^ (k * q) =
      ((wC N ^ t)⁻¹ * wC N ^ k) ^ q := by
    intro t q hq
    have hut : (wC N ^ t) ^ N = 1 := by
      rw [← pow_mul, mul_comm t N, pow_mul, hw, one_pow]
    have h1 : wC N ^ ((N - q) % N * t) = ((wC N ^ t)⁻¹) ^ q := by
      rcases Nat.eq_zero_or_pos q with h0 | hqpos
      · subst h0
        rw [Nat.sub_zero, Nat.mod_self, Nat.zero_mul, pow_zero, pow_zero]
      · have hmq : (N - q) % N = N - q := Nat.mod_eq_of_lt (by omega)
        rw [hmq, mul_comm (N - q) t, pow_mul, inv_pow]
        apply eq_inv_of_mul_eq_one_left
        rw [← pow_add, show N - q + q = N by omega, hut]
    rw [h1, pow_mul, ← mul_pow]
  simp only [DFTP]
  have step1 : ∀ q ∈ Finset.range N,
      (∑ t ∈ Finset.range N, f t * wC N ^ ((N - q) % N * t)) * wC N ^ (k * q) =
      ∑ t ∈ Finset.range N, f t * ((wC N ^ t)⁻¹ * wC N ^ k) ^ q := by
    intro q hq
    rw [Finset.sum_mul]
    refine Finset.sum_congr rfl fun t _ => ?_
    rw [mul_assoc, hpow_inner t q (Finset.mem_range.mp hq)]
  rw [Finset.sum_congr rfl step1, Finset.sum_comm]
  have hgeom : ∀ t, t < N →
      (∑ q ∈ Finset.range N, ((wC N ^ t)⁻¹ * wC N ^ k) ^ q) =
      if t = k then (N : ℂ) else 0 := by
    intro t ht
    by_cases htk : t = k
    · subst htk
      rw [if_pos rfl, inv_mul_cancel₀ (pow_ne_zero t (wC_ne_zero N))]
      simp
    · rw [if_neg htk]
      have hzne : (wC N ^ t)⁻¹ * wC N ^ k ≠ 1 := by
        intro hcon
        have h1 : wC N ^ t = wC N ^ k :=
          (inv_mul_eq_one₀ (pow_ne_zero t (wC_ne_zero N))).mp hcon
        exact htk (hprim.pow_inj ht hk h1)
      have hzN : ((wC N ^ t)⁻¹ * wC N ^ k) ^ N = 1 := by
        rw [mul_pow, inv_pow, ← pow_mul, ← pow_mul, mul_comm t N, mul_comm k N,
          pow_mul, pow_mul, hw, one_pow, one_pow, inv_one, one_mul]
      rw [geom_sum_eq hzne N, hzN, sub_self, zero_div]
  have step2 : ∀ t ∈ Finset.range N,
      (∑ q ∈ Finset.range N, f t * ((wC N ^ t)⁻¹ * wC N ^ k) ^ q) =
      if t = k then f t * (N : ℂ) else 0 := by
    intro t ht
    rw [← Finset.mul_sum, hgeom t (Finset.mem_range.mp ht)]
    by_cases htk : t = k
    · rw [if_pos htk, if_pos htk]
    · rw [if_neg htk, if_neg htk, mul_zero]
  rw [Finset.sum_congr rfl step2,
    Finset.sum_ite_eq' (Finset.range N) k (fun t => f t * (N : ℂ)),
    if_pos (Finset.mem_range.mpr hk)]
  exact mul_comm (f k) ((N : ℕ) : ℂ)

/-- Reading a mapped scaling pointwise. -/
theorem getD_map_mul (l : List ℂ) (c : ℂ) (p : ℕ) (hp : p < l.length) :
    (l.map (fun a => a * c)).getD p 0 = l.getD p 0 * c := by
  simp [List.getD, List.getElem?_map, List.getElem?_eq_getElem hp]

/-- The exact round trip at the level of `fft`/`ifft`: on a power-of-two
buffer, `ifft` undoes `fft`. -/
theorem fft_roundtrip (m : ℕ) (x : List ℂ) (hx : x.length = 2 ^ m) :
    ifft (fft x (2 ^ m) (roots (2 ^ m)) (permutationIndex (2 ^ m))) (2 ^ m)
      (roots (2 ^ m)) (permutationIndex (2 ^ m)) = x := by
  have h2m : 0 < 2 ^ m := Nat.pos_pow_of_pos m (by norm_num)
  have hne : ((2 ^ m : ℕ) : ℂ) ≠ 0 := Nat.cast_ne_zero.mpr h2m.ne'
  have hyl : (fft x (2 ^ m) (roots (2 ^ m)) (permutationIndex (2 ^ m))).length
      = 2 ^ m := by
    rw [length_fft, hx]
  have he : (2 ^ m) % 2 = 0 ∨ (2 ^ m) = 1 := by
    rcases Nat.eq_zero_or_pos m with h0 | hpos
    · right
      rw [h0, pow_zero]
    · left
      rw [show m = m - 1 + 1 by omega, pow_succ]
      exact Nat.mul_mod_left _ 2
  have hrl : (ifftRev (fft x (2 ^ m) (roots (2 ^ m)) (permutationIndex (2 ^ m)))
      (2 ^ m)).length = 2 ^ m := by
    rw [length_ifftRev, hyl]
  have hrg : ∀ q, q < 2 ^ m →
      (ifftRev (fft x (2 ^ m) (roots (2 ^ m)) (permutationIndex (2 ^ m)))
        (2 ^ m)).getD q 0 =
      DFTP (2 ^ m) (fun t => x.getD t 0) ((2 ^ m - q) % 2 ^ m) := by
    intro q hq
    rw [ifftRev_eq_spec _ _ hyl he, reverseInteriorSpec, getD_map_range _ _ _ _ hq]
    by_cases h0 : q = 0
    · subst h0
      rw [if_pos rfl, Nat.sub_zero, Nat.mod_self]
      exact fft_eq_DFTP m x hx 0 h2m
    · rw [if_neg h0,
        show (2 ^ m - q) % 2 ^ m = 2 ^ m - q from Nat.mod_eq_of_lt (by omega)]
      exact fft_eq_DFTP m x hx (2 ^ m - q) (by omega)
  have hzl : (fft (ifftRev (fft x (2 ^ m) (roots (2 ^ m))
      (permutationIndex (2 ^ m))) (2 ^ m)) (2 ^ m) (roots (2 ^ m))
      (permutationIndex (2 ^ m))).length = 2 ^ m := by
    rw [length_fft, hrl]
  have hzg : ∀ p, p < 2 ^ m →
      (fft (ifftRev (fft x (2 ^ m) (roots (2 ^ m)) (permutationIndex (2 ^ m)))
        (2 ^ m)) (2 ^ m) (roots (2 ^ m)) (permutationIndex (2 ^ m))).getD p 0 =
      ((2 ^ m : ℕ) : ℂ) * x.getD p 0 := by
    intro p hp
    rw [fft_eq_DFTP m _ hrl p hp,
      DFTP_congr (2 ^ m) _
        (fun q => DFTP (2 ^ m) (fun t => x.getD t 0) ((2 ^ m - q) % 2 ^ m)) hrg p]
    exact DFTP_inv (2 ^ m) h2m (fun t => x.getD t 0) p hp
  rw [ifft, ifftScale_eq_map _ _ _ hzl]
  refine list_ext_getD _ _ 0 ?_ ?_
  · rw [List.length_map, hzl, hx]
  · intro p hp
    have hpN : p < 2 ^ m := by rwa [List.length_map, hzl] at hp
    rw [getD_map_mul _ _ _ (by rw [hzl]; exact hpN), hzg p hpN,
      mul_comm (((2 ^ m : ℕ) : ℂ)) (x.getD p 0), mul_assoc,
      mul_inv_cancel₀ hne, mul_one]

/-- **C4.** For every power of two `N = 2^m` and every complex buffer `x` of
length `N`, the forward transform `FFT` succeeds and the inverse transform
`IFFT` applied to its output reproduces the original buffer exactly (the
idealised-arithmetic statement of "identity up to rounding"). -/
theorem C4_ifft_fft_identity (x : List ℂ) (m : ℕ) (hx : x.length = 2 ^ m) :
    (FFT x).1 = none ∧ IFFT (FFT x).2 = (none, x) := by
  have hp2 : IsPow2 (2 ^ m) = true := isPow2_two_pow m
  have hFFT : FFT x =
      (none, fft x (2 ^ m) (roots (2 ^ m)) (permutationIndex (2 ^ m))) := by
    simp [FFT, getVars, Prepare, hx, hp2]
  have hyl : (fft x (2 ^ m) (roots (2 ^ m)) (permutationIndex (2 ^ m))).length
      = 2 ^ m := by
    rw [length_fft, hx]
  have hIFFT : IFFT (fft x (2 ^ m) (roots (2 ^ m)) (permutationIndex (2 ^ m))) =
      (none, ifft (fft x (2 ^ m) (roots (2 ^ m)) (permutationIndex (2 ^ m)))
        (2 ^ m) (roots (2 ^ m)) (permutationIndex (2 ^ m))) := by
    simp [IFFT, getVars, Prepare, hyl, hp2]
  refine ⟨by rw [hFFT], ?_⟩
  rw [hFFT]
  show IFFT (fft x (2 ^ m) (roots (2 ^ m)) (permutationIndex (2 ^ m))) = (none, x)
  rw [hIFFT, fft_roundtrip m x hx]

/-- Witness for C4 at the concrete buffer `[1]` (length `2^0`). -/
theorem C4_ifft_fft_identity_witness :
    ([1] : List ℂ).length = 2 ^ 0 ∧
    ((FFT [1]).1 = none ∧ IFFT (FFT [1]).2 = (none, ([1] : List ℂ))) :=
  ⟨rfl, C4_ifft_fft_identity [1] 0 rfl⟩

end Gofft
